import Mathlib

/-!
# Verification of the ltranslate incremental locale synchronization core

A shallow embedding of the ltranslate program (src/main.rs, src/types.rs):
a tool that tracks an English source locale document, diffs it against a
snapshot of the last successful sync, translates only the changed-or-added
entries via an external provider, and keeps derived per-language documents
synchronized.

Locale documents (`serde_json::Map<String, Value>`, a map with `String` keys
ordered by key, restricted to string values per the flat string-map data
model) are embedded as association lists with strictly ascending keys
(`SortedKeys`).  All map operations (`getVal`, `insertVal`, `removeKey`,
`collectMap`) mirror the corresponding map operations used by the source.
The external DeepL translation capability and the interactive prompts are
collaborators, passed in as explicit function parameters; the file system is
embedded as an association list from path to `FileContent`.
-/

namespace LTranslate

/-- The ascending key order in which `BTreeMap` / `serde_json::Map`
iterate: lexicographic order on the keys, embedded as the lexicographic
order on their character lists. -/
def keyLt (a b : String) : Prop := a.data < b.data

instance : DecidableRel keyLt := fun a b =>
  inferInstanceAs (Decidable (a.data < b.data))

theorem keyLt_irrefl (a : String) : ¬keyLt a a := lt_irrefl a.data

theorem keyLt_trans {a b c : String} (h1 : keyLt a b) (h2 : keyLt b c) :
    keyLt a c := lt_trans h1 h2

theorem keyLt_asymm {a b : String} (h : keyLt a b) : ¬keyLt b a := lt_asymm h

theorem keyLt_ne {a b : String} (h : keyLt a b) : a ≠ b := by
  intro he
  rw [he] at h
  exact keyLt_irrefl b h

theorem keyLt_trichotomy (a b : String) : keyLt a b ∨ a = b ∨ keyLt b a := by
  rcases lt_trichotomy a.data b.data with h | h | h
  · exact Or.inl h
  · refine Or.inr (Or.inl ?_)
    cases a
    cases b
    exact congrArg String.mk h
  · exact Or.inr (Or.inr h)

instance : IsIrrefl String keyLt := ⟨keyLt_irrefl⟩

instance : Trans keyLt keyLt keyLt := ⟨keyLt_trans⟩

/-- Lookup in an association list with `String` keys: the first binding of
the key, mirroring map `get`. -/
def getVal {α : Type} : List (String × α) → String → Option α
  | [], _ => none
  | (k1, v1) :: rest, k => if k1 = k then some v1 else getVal rest k

/-- Key membership, mirroring map `contains_key`. -/
def containsKey {α : Type} (m : List (String × α)) (k : String) : Bool :=
  (getVal m k).isSome

/-- Ordered insert-or-replace, mirroring `BTreeMap::insert` / map `insert`
on the ascending-key representation. -/
def insertVal {α : Type} : List (String × α) → String → α → List (String × α)
  | [], k, v => [(k, v)]
  | (k1, v1) :: rest, k, v =>
    if keyLt k k1 then (k, v) :: (k1, v1) :: rest
    else if k = k1 then (k, v) :: rest
    else (k1, v1) :: insertVal rest k v

/-- Key removal, mirroring map `remove` (on a map representation where each
key occurs at most once, removing every binding of the key is `remove`). -/
def removeKey {α : Type} (m : List (String × α)) (k : String) : List (String × α) :=
  m.filter (fun p => p.1 != k)

/-- The representation invariant of the embedded maps: keys strictly
ascending, as iteration over `BTreeMap` / `serde_json::Map` produces them. -/
def SortedKeys {α : Type} (m : List (String × α)) : Prop :=
  (m.map Prod.fst).Sorted keyLt

/-- Keys pairwise distinct (implied by `SortedKeys`). -/
def NodupKeys {α : Type} (m : List (String × α)) : Prop :=
  (m.map Prod.fst).Nodup

/-- Collecting an iterator of pairs into a fresh map
(`.collect::<Map<_,_>>()`): repeated ordered insertion starting from the
empty map. -/
def collectMap {α : Type} (l : List (String × α)) : List (String × α) :=
  l.foldl (fun m p => insertVal m p.1 p.2) []

section MapLemmas

variable {α : Type}

instance {α : Type} : DecidablePred (SortedKeys (α := α)) := fun m =>
  inferInstanceAs (Decidable ((m.map Prod.fst).Sorted keyLt))

theorem nodupKeys_of_sortedKeys {m : List (String × α)} (h : SortedKeys m) :
    NodupKeys m :=
  h.nodup

@[simp] theorem getVal_nil (k : String) : getVal ([] : List (String × α)) k = none := rfl

theorem getVal_cons_self {k : String} {v : α} {rest : List (String × α)} :
    getVal ((k, v) :: rest) k = some v := by
  simp [getVal]

theorem getVal_cons_ne {k1 k : String} {v : α} {rest : List (String × α)}
    (h : k1 ≠ k) : getVal ((k1, v) :: rest) k = getVal rest k := by
  simp [getVal, h]

theorem mem_keys_of_getVal {m : List (String × α)} {k : String} {v : α}
    (h : getVal m k = some v) : k ∈ m.map Prod.fst := by
  induction m with
  | nil => simp [getVal] at h
  | cons p rest ih =>
    obtain ⟨k1, v1⟩ := p
    by_cases hk : k1 = k
    · subst hk; simp
    · rw [getVal_cons_ne hk] at h
      simp [ih h]

theorem mem_of_getVal {m : List (String × α)} {k : String} {v : α}
    (h : getVal m k = some v) : (k, v) ∈ m := by
  induction m with
  | nil => simp [getVal] at h
  | cons p rest ih =>
    obtain ⟨k1, v1⟩ := p
    by_cases hk : k1 = k
    · subst hk
      rw [getVal_cons_self] at h
      simp [(Option.some.injEq .. ▸ h : v1 = v).symm]
    · rw [getVal_cons_ne hk] at h
      simp [ih h]

theorem getVal_eq_none_iff {m : List (String × α)} {k : String} :
    getVal m k = none ↔ k ∉ m.map Prod.fst := by
  induction m with
  | nil => simp
  | cons p rest ih =>
    obtain ⟨k1, v1⟩ := p
    by_cases hk : k1 = k
    · subst hk; simp [getVal_cons_self]
    · rw [getVal_cons_ne hk]
      simp [ih, Ne.symm hk, hk]

theorem getVal_eq_some_of_mem {m : List (String × α)} {k : String} {v : α}
    (hnd : NodupKeys m) (h : (k, v) ∈ m) : getVal m k = some v := by
  induction m with
  | nil => simp at h
  | cons p rest ih =>
    obtain ⟨k1, v1⟩ := p
    rcases List.mem_cons.mp h with h1 | h1
    · obtain ⟨hk, hv⟩ := Prod.mk.injEq .. ▸ h1.symm
      subst hk; subst hv
      exact getVal_cons_self
    · have hk1 : k1 ≠ k := by
        intro hkk
        subst hkk
        have : k1 ∈ rest.map Prod.fst := List.mem_map_of_mem Prod.fst h1
        exact (List.nodup_cons.mp hnd).1 this
      rw [getVal_cons_ne hk1]
      exact ih (List.nodup_cons.mp hnd).2 h1

theorem sortedKeys_cons {k : String} {v : α} {rest : List (String × α)}
    (h : SortedKeys ((k, v) :: rest)) :
    (∀ p ∈ rest, keyLt k p.1) ∧ SortedKeys rest := by
  unfold SortedKeys at h
  rw [List.map_cons, List.sorted_cons] at h
  refine ⟨fun p hp => h.1 p.1 (List.mem_map_of_mem Prod.fst hp), h.2⟩

theorem getVal_tail_of_sorted {k : String} {v : α} {rest : List (String × α)}
    (h : SortedKeys ((k, v) :: rest)) : getVal rest k = none := by
  rw [getVal_eq_none_iff]
  intro hmem
  rcases List.mem_map.mp hmem with ⟨p, hp, hpk⟩
  have := (sortedKeys_cons h).1 p hp
  rw [hpk] at this
  exact keyLt_irrefl k this

theorem getVal_insertVal_self {m : List (String × α)} {k : String} {v : α} :
    getVal (insertVal m k v) k = some v := by
  induction m with
  | nil => exact getVal_cons_self
  | cons p rest ih =>
    obtain ⟨k1, v1⟩ := p
    unfold insertVal
    by_cases h1 : keyLt k k1
    · rw [if_pos h1]
      exact getVal_cons_self
    · by_cases h2 : k = k1
      · subst h2
        rw [if_neg h1, if_pos rfl]
        exact getVal_cons_self
      · rw [if_neg h1, if_neg h2, getVal_cons_ne (fun h => h2 h.symm)]
        exact ih

theorem getVal_insertVal_ne {m : List (String × α)} {k k2 : String} {v : α}
    (hne : k2 ≠ k) : getVal (insertVal m k v) k2 = getVal m k2 := by
  induction m with
  | nil =>
    show getVal [(k, v)] k2 = getVal [] k2
    rw [getVal_cons_ne (fun h => hne h.symm)]
  | cons p rest ih =>
    obtain ⟨k1, v1⟩ := p
    unfold insertVal
    by_cases h1 : keyLt k k1
    · rw [if_pos h1]
      rw [getVal_cons_ne (fun h => hne h.symm)]
    · by_cases h2 : k = k1
      · subst h2
        rw [if_neg h1, if_pos rfl]
        rw [getVal_cons_ne (fun h => hne h.symm), getVal_cons_ne (fun h => hne h.symm)]
      · simp only [if_neg h1, if_neg h2]
        by_cases h3 : k1 = k2
        · subst h3; rw [getVal_cons_self, getVal_cons_self]
        · rw [getVal_cons_ne h3, getVal_cons_ne h3]
          exact ih

theorem containsKey_insertVal {m : List (String × α)} {k k2 : String} {v : α} :
    containsKey (insertVal m k v) k2 = (k2 = k || containsKey m k2) := by
  by_cases h : k2 = k
  · subst h
    simp [containsKey, getVal_insertVal_self]
  · simp [containsKey, getVal_insertVal_ne h, h]

theorem getVal_removeKey_self {m : List (String × α)} {k : String} :
    getVal (removeKey m k) k = none := by
  rw [getVal_eq_none_iff]
  intro hmem
  rcases List.mem_map.mp hmem with ⟨p, hp, hpk⟩
  have := List.of_mem_filter hp
  rw [hpk] at this
  simp at this

theorem getVal_removeKey_ne {m : List (String × α)} {k k2 : String}
    (hne : k2 ≠ k) : getVal (removeKey m k) k2 = getVal m k2 := by
  induction m with
  | nil => rfl
  | cons p rest ih =>
    obtain ⟨k1, v1⟩ := p
    by_cases h1 : k1 = k
    · subst h1
      have : removeKey ((k1, v1) :: rest) k1 = removeKey rest k1 := by
        simp [removeKey]
      rw [this, ih, getVal_cons_ne (fun h => hne h.symm)]
    · have : removeKey ((k1, v1) :: rest) k = (k1, v1) :: removeKey rest k := by
        simp [removeKey, h1]
      rw [this]
      by_cases h2 : k1 = k2
      · subst h2; rw [getVal_cons_self, getVal_cons_self]
      · rw [getVal_cons_ne h2, getVal_cons_ne h2, ih]

theorem containsKey_removeKey {m : List (String × α)} {k k2 : String} :
    containsKey (removeKey m k) k2 = (!(k2 = k) && containsKey m k2) := by
  by_cases h : k2 = k
  · subst h
    simp [containsKey, getVal_removeKey_self]
  · simp [containsKey, getVal_removeKey_ne h, h]

theorem mem_insertVal {m : List (String × α)} {k : String} {v : α} {q : String × α}
    (h : q ∈ insertVal m k v) : q = (k, v) ∨ q ∈ m := by
  induction m with
  | nil => simp [insertVal] at h; simp [h]
  | cons p rest ih =>
    obtain ⟨k1, v1⟩ := p
    unfold insertVal at h
    by_cases h1 : keyLt k k1
    · rw [if_pos h1] at h
      rcases List.mem_cons.mp h with hm | hm
      · exact Or.inl hm
      · exact Or.inr hm
    · by_cases h2 : k = k1
      · rw [if_neg h1, if_pos h2] at h
        rcases List.mem_cons.mp h with hm | hm
        · exact Or.inl hm
        · exact Or.inr (List.mem_cons_of_mem _ hm)
      · rw [if_neg h1, if_neg h2] at h
        rcases List.mem_cons.mp h with hm | hm
        · exact Or.inr (hm ▸ List.mem_cons_self _ _)
        · rcases ih hm with hq | hq
          · exact Or.inl hq
          · exact Or.inr (List.mem_cons_of_mem _ hq)

theorem sortedKeys_insertVal {m : List (String × α)} {k : String} {v : α}
    (h : SortedKeys m) : SortedKeys (insertVal m k v) := by
  induction m with
  | nil =>
    simp [insertVal, SortedKeys]
  | cons p rest ih =>
    obtain ⟨k1, v1⟩ := p
    obtain ⟨hhead, htail⟩ := sortedKeys_cons h
    unfold insertVal
    by_cases h1 : keyLt k k1
    · rw [if_pos h1]
      unfold SortedKeys
      rw [List.map_cons, List.sorted_cons]
      refine ⟨?_, h⟩
      intro b hb
      rcases List.mem_map.mp hb with ⟨q, hq, hqb⟩
      rcases List.mem_cons.mp hq with h2 | h2
      · rw [h2] at hqb
        exact hqb ▸ h1
      · exact hqb ▸ keyLt_trans h1 (hhead q h2)
    · by_cases h2 : k = k1
      · subst h2
        rw [if_neg h1, if_pos rfl]
        unfold SortedKeys
        rw [List.map_cons, List.sorted_cons]
        refine ⟨?_, htail⟩
        intro b hb
        rcases List.mem_map.mp hb with ⟨q, hq, hqb⟩
        rw [← hqb]
        exact hhead q hq
      · have h3 : keyLt k1 k := by
          rcases keyLt_trichotomy k k1 with hlt | heq | hgt
          · exact absurd hlt h1
          · exact absurd heq h2
          · exact hgt
        rw [if_neg h1, if_neg h2]
        unfold SortedKeys
        rw [List.map_cons, List.sorted_cons]
        refine ⟨?_, ih htail⟩
        intro b hb
        rcases List.mem_map.mp hb with ⟨q, hq, hqb⟩
        rw [← hqb]
        rcases mem_insertVal hq with hm | hm
        · rw [hm]
          exact h3
        · exact hhead q hm

theorem insertVal_eq_append {m : List (String × α)} {k : String} {v : α}
    (h : ∀ p ∈ m, keyLt p.1 k) : insertVal m k v = m ++ [(k, v)] := by
  induction m with
  | nil => rfl
  | cons p rest ih =>
    obtain ⟨k1, v1⟩ := p
    have hk1 : keyLt k1 k := h (k1, v1) (List.mem_cons_self _ _)
    unfold insertVal
    rw [if_neg (keyLt_asymm hk1), if_neg (Ne.symm (keyLt_ne hk1))]
    rw [ih (fun q hq => h q (List.mem_cons_of_mem _ hq))]
    rfl

theorem foldl_insertVal_sorted {l acc : List (String × α)}
    (h : SortedKeys (acc ++ l)) :
    l.foldl (fun m p => insertVal m p.1 p.2) acc = acc ++ l := by
  induction l generalizing acc with
  | nil => simp
  | cons p rest ih =>
    obtain ⟨k, v⟩ := p
    have hacc : ∀ q ∈ acc, keyLt q.1 k := by
      intro q hq
      unfold SortedKeys at h
      rw [List.map_append, List.map_cons] at h
      have := (List.pairwise_append.mp h).2.2 q.1 (List.mem_map_of_mem Prod.fst hq)
        k (List.mem_cons_self _ _)
      exact this
    have hstep : insertVal acc k v = acc ++ [(k, v)] := insertVal_eq_append hacc
    show List.foldl (fun m p => insertVal m p.1 p.2) (insertVal acc k v) rest
        = acc ++ (k, v) :: rest
    rw [hstep]
    have hsort2 : SortedKeys ((acc ++ [(k, v)]) ++ rest) := by
      rw [List.append_assoc]
      exact h
    rw [ih hsort2, List.append_assoc]
    rfl

theorem collectMap_eq_self {l : List (String × α)} (h : SortedKeys l) :
    collectMap l = l := by
  unfold collectMap
  exact foldl_insertVal_sorted (by simpa using h)

theorem sortedKeys_collectMap (l : List (String × α)) : SortedKeys (collectMap l) := by
  unfold collectMap
  suffices hgen : ∀ acc : List (String × α), SortedKeys acc →
      SortedKeys (l.foldl (fun m p => insertVal m p.1 p.2) acc) by
    exact hgen [] (by simp [SortedKeys])
  induction l with
  | nil => intro acc hacc; exact hacc
  | cons p rest ih =>
    intro acc hacc
    exact ih _ (sortedKeys_insertVal hacc)

theorem collectMap_eq_nil_iff {l : List (String × α)} :
    collectMap l = [] ↔ l = [] := by
  constructor
  · intro h
    cases l with
    | nil => rfl
    | cons p rest =>
      exfalso
      have hne : ∀ (acc : List (String × α)) (l2 : List (String × α)), acc ≠ [] →
          l2.foldl (fun m q => insertVal m q.1 q.2) acc ≠ [] := by
        intro acc l2
        induction l2 generalizing acc with
        | nil => intro h2; exact h2
        | cons q rest2 ih =>
          intro _
          refine ih (insertVal acc q.1 q.2) ?_
          cases acc with
          | nil => simp [insertVal]
          | cons a t =>
            obtain ⟨k1, v1⟩ := a
            unfold insertVal
            by_cases h1 : keyLt q.1 k1
            · rw [if_pos h1]
              simp
            · by_cases h2 : q.1 = k1
              · rw [if_neg h1, if_pos h2]
                simp
              · rw [if_neg h1, if_neg h2]
                simp
      have : collectMap (p :: rest) ≠ [] := by
        unfold collectMap
        show List.foldl (fun m q => insertVal m q.1 q.2) (insertVal [] p.1 p.2) rest ≠ []
        exact hne _ rest (by simp [insertVal])
      exact this h
  · intro h; rw [h]; rfl

theorem getVal_filter_of_none {m : List (String × α)} {p : String × α → Bool} {k : String}
    (h : getVal m k = none) : getVal (m.filter p) k = none := by
  rw [getVal_eq_none_iff] at h ⊢
  intro hmem
  rcases List.mem_map.mp hmem with ⟨q, hq, hqk⟩
  exact h (List.mem_map.mpr ⟨q, List.mem_of_mem_filter hq, hqk⟩)

theorem getVal_filter {m : List (String × α)} {p : String × α → Bool} {k : String}
    (hnd : NodupKeys m) :
    getVal (m.filter p) k =
      (getVal m k).bind (fun v => if p (k, v) then some v else none) := by
  induction m with
  | nil => rfl
  | cons q rest ih =>
    obtain ⟨k1, v1⟩ := q
    have hnd2 : NodupKeys rest := (List.nodup_cons.mp hnd).2
    by_cases hk : k1 = k
    · subst hk
      have htail : getVal rest k1 = none := by
        rw [getVal_eq_none_iff]
        exact (List.nodup_cons.mp hnd).1
      by_cases hp : p (k1, v1)
      · rw [List.filter_cons_of_pos hp, getVal_cons_self, getVal_cons_self]
        simp [hp]
      · rw [List.filter_cons_of_neg hp, getVal_cons_self, getVal_filter_of_none htail]
        simp [hp]
    · rw [getVal_cons_ne hk]
      by_cases hp : p (k1, v1)
      · rw [List.filter_cons_of_pos hp, getVal_cons_ne hk]
        exact ih hnd2
      · rw [List.filter_cons_of_neg hp]
        exact ih hnd2

theorem sortedKeys_filter {m : List (String × α)} {p : String × α → Bool}
    (h : SortedKeys m) : SortedKeys (m.filter p) := by
  unfold SortedKeys at h ⊢
  exact h.sublist ((List.filter_sublist m).map Prod.fst)

theorem getVal_ext_sorted {m n : List (String × α)}
    (hm : SortedKeys m) (hn : SortedKeys n)
    (h : ∀ k, getVal m k = getVal n k) : m = n := by
  induction m generalizing n with
  | nil =>
    cases n with
    | nil => rfl
    | cons q n2 =>
      obtain ⟨k2, v2⟩ := q
      have := h k2
      rw [getVal_nil, getVal_cons_self] at this
      exact absurd this (by simp)
  | cons q m2 ih =>
    obtain ⟨k1, v1⟩ := q
    cases n with
    | nil =>
      have := h k1
      rw [getVal_nil, getVal_cons_self] at this
      exact absurd this (by simp)
    | cons r n2 =>
      obtain ⟨k2, v2⟩ := r
      have hk : k1 = k2 := by
        rcases keyLt_trichotomy k1 k2 with hlt | heq | hgt
        · exfalso
          have h1 := h k1
          rw [getVal_cons_self, getVal_cons_ne (Ne.symm (keyLt_ne hlt))] at h1
          have hmem := mem_keys_of_getVal h1.symm
          rcases List.mem_map.mp hmem with ⟨s, hs, hsk⟩
          have := (sortedKeys_cons hn).1 s hs
          rw [hsk] at this
          exact absurd (keyLt_trans hlt this) (keyLt_irrefl k1)
        · exact heq
        · exfalso
          have h2 := h k2
          rw [getVal_cons_self, getVal_cons_ne (Ne.symm (keyLt_ne hgt))] at h2
          have hmem := mem_keys_of_getVal h2
          rcases List.mem_map.mp hmem with ⟨s, hs, hsk⟩
          have := (sortedKeys_cons hm).1 s hs
          rw [hsk] at this
          exact absurd (keyLt_trans hgt this) (keyLt_irrefl k2)
      subst hk
      have hv : v1 = v2 := by
        have h1 := h k1
        rw [getVal_cons_self, getVal_cons_self] at h1
        exact Option.some.injEq .. ▸ h1
      subst hv
      have htails : m2 = n2 := by
        refine ih (sortedKeys_cons hm).2 (sortedKeys_cons hn).2 ?_
        intro k
        by_cases hk1 : k1 = k
        · subst hk1
          rw [getVal_tail_of_sorted hm, getVal_tail_of_sorted hn]
        · have := h k
          rw [getVal_cons_ne hk1, getVal_cons_ne hk1] at this
          exact this
      rw [htails]

end MapLemmas

/-! ## Locale documents and the diff engine -/

/-- A flat locale document: the parsed content of a locale JSON file,
`serde_json::Map<String, Value>` restricted to string values (the data model
is a flat string map; a non-string value is a fatal error at
text-extraction time and never enters the synchronization core). -/
abbrev LocaleData := List (String × String)

/-- The diff result: `src/main.rs` `JsonMapDiff` and `src/types.rs`
`LocaleDataDiff` are this same two-field record. -/
structure LocaleDataDiff where
  changed_or_added : LocaleData
  removed : LocaleData
deriving DecidableEq

/-- The changed-or-added iterator chain shared verbatim by
`diff_locales` (src/main.rs) and `LocaleDataDiff::diff` (src/types.rs):
keep every entry of `current` whose key is absent from `original` or maps
to a different value there. -/
def diffChangedList (original current : LocaleData) : LocaleData :=
  current.filter (fun p =>
    match getVal original p.1 with
    | none => true
    | some old_v => old_v != p.2)

/-- The removed iterator chain shared verbatim by `diff_locales`
(src/main.rs) and `LocaleDataDiff::diff` (src/types.rs): keep every entry
of `original` whose key is absent from `current`. -/
def diffRemovedList (original current : LocaleData) : LocaleData :=
  original.filter (fun p => !containsKey current p.1)

/-- `diff_locales` from src/main.rs: the pure per-key scan, collecting both
filtered iterators into fresh maps and returning `None` when both are
empty. -/
def diff_locales (original current : LocaleData) : Option LocaleDataDiff :=
  let changed_or_added := collectMap (diffChangedList original current)
  let removed := collectMap (diffRemovedList original current)
  if changed_or_added.isEmpty && removed.isEmpty then none
  else some { changed_or_added := changed_or_added, removed := removed }

/-- `LocaleDataDiff::diff` from src/types.rs: identical to `diff_locales`
except for the `original == current` identity short-circuit checked first. -/
def LocaleDataDiff.diff (original current : LocaleData) : Option LocaleDataDiff :=
  if original = current then none
  else
    let changed_or_added := collectMap (diffChangedList original current)
    let removed := collectMap (diffRemovedList original current)
    if changed_or_added.isEmpty && removed.isEmpty then none
    else some { changed_or_added := changed_or_added, removed := removed }

/-- The changed-or-added mapping of the diff, reading the `None` (Empty)
sentinel as the empty mapping. -/
def diffChanged (original current : LocaleData) : LocaleData :=
  match diff_locales original current with
  | none => []
  | some d => d.changed_or_added

/-- The removed mapping of the diff, reading the `None` (Empty) sentinel as
the empty mapping. -/
def diffRemoved (original current : LocaleData) : LocaleData :=
  match diff_locales original current with
  | none => []
  | some d => d.removed

section DiffLemmas

theorem diffChangedList_self {A : LocaleData} (h : NodupKeys A) :
    diffChangedList A A = [] := by
  unfold diffChangedList
  rw [List.filter_eq_nil_iff]
  intro p hp
  obtain ⟨k, v⟩ := p
  rw [getVal_eq_some_of_mem h hp]
  simp

theorem diffRemovedList_self {A : LocaleData} : diffRemovedList A A = [] := by
  unfold diffRemovedList
  rw [List.filter_eq_nil_iff]
  intro p hp
  obtain ⟨k, v⟩ := p
  have hk : k ∈ A.map Prod.fst := List.mem_map_of_mem Prod.fst hp
  have hne : getVal A k ≠ none := fun h => (getVal_eq_none_iff.mp h) hk
  have hs : (getVal A k).isSome = true := Option.isSome_iff_ne_none.mpr hne
  simp [containsKey, hs]

theorem diff_locales_self {A : LocaleData} (h : NodupKeys A) :
    diff_locales A A = none := by
  unfold diff_locales
  rw [diffChangedList_self h, diffRemovedList_self]
  rfl

theorem diffChanged_eq {original current : LocaleData} :
    diffChanged original current = collectMap (diffChangedList original current) := by
  unfold diffChanged diff_locales
  by_cases h : (collectMap (diffChangedList original current)).isEmpty
      && (collectMap (diffRemovedList original current)).isEmpty
  · rw [if_pos h]
    have := (Bool.and_eq_true .. ▸ h).1
    rw [List.isEmpty_iff] at this
    rw [this]
  · rw [if_neg h]

theorem diffRemoved_eq {original current : LocaleData} :
    diffRemoved original current = collectMap (diffRemovedList original current) := by
  unfold diffRemoved diff_locales
  by_cases h : (collectMap (diffChangedList original current)).isEmpty
      && (collectMap (diffRemovedList original current)).isEmpty
  · rw [if_pos h]
    have := (Bool.and_eq_true .. ▸ h).2
    rw [List.isEmpty_iff] at this
    rw [this]
  · rw [if_neg h]

theorem sortedKeys_diffChangedList {A B : LocaleData} (hB : SortedKeys B) :
    SortedKeys (diffChangedList A B) := by
  unfold diffChangedList
  exact sortedKeys_filter hB

theorem sortedKeys_diffRemovedList {A B : LocaleData} (hA : SortedKeys A) :
    SortedKeys (diffRemovedList A B) := by
  unfold diffRemovedList
  exact sortedKeys_filter hA

theorem changedPred_iff {A : LocaleData} {k w : String} :
    ((match getVal A k with
      | none => true
      | some old_v => old_v != w) = true) ↔ getVal A k ≠ some w := by
  cases hAk : getVal A k with
  | none => simp
  | some u => simp [bne_iff_ne]

theorem getVal_diffChanged {A B : LocaleData} (hB : SortedKeys B) {k : String} {v : String} :
    getVal (diffChanged A B) k = some v ↔
      getVal B k = some v ∧ getVal A k ≠ some v := by
  rw [diffChanged_eq, collectMap_eq_self (sortedKeys_diffChangedList hB)]
  unfold diffChangedList
  rw [getVal_filter (nodupKeys_of_sortedKeys hB)]
  cases hBk : getVal B k with
  | none => simp
  | some w =>
    rw [Option.some_bind]
    by_cases hpred : getVal A k ≠ some w
    · rw [if_pos (changedPred_iff.mpr hpred)]
      constructor
      · intro h
        have hw : w = v := Option.some.injEq .. ▸ h
        subst hw
        exact ⟨rfl, hpred⟩
      · intro hx
        exact hx.1
    · rw [if_neg (fun hc => hpred (changedPred_iff.mp hc))]
      rw [not_not] at hpred
      constructor
      · intro h
        exact absurd h (by simp)
      · intro hx
        exfalso
        have hw : w = v := Option.some.injEq .. ▸ hx.1
        subst hw
        exact hx.2 hpred

theorem getVal_diffRemoved {A B : LocaleData} (hA : SortedKeys A) {k : String} {v : String} :
    getVal (diffRemoved A B) k = some v ↔
      getVal A k = some v ∧ getVal B k = none := by
  rw [diffRemoved_eq, collectMap_eq_self (sortedKeys_diffRemovedList hA)]
  unfold diffRemovedList
  rw [getVal_filter (nodupKeys_of_sortedKeys hA)]
  cases hAk : getVal A k with
  | none => simp
  | some w =>
    rw [Option.some_bind]
    by_cases hB2 : getVal B k = none
    · rw [if_pos (by simp [containsKey, hB2])]
      constructor
      · intro h
        have hw : w = v := Option.some.injEq .. ▸ h
        subst hw
        exact ⟨rfl, hB2⟩
      · intro hx
        exact hx.1
    · rw [if_neg (by simp [containsKey, Option.isSome_iff_ne_none, hB2])]
      constructor
      · intro h
        exact absurd h (by simp)
      · intro hx
        exact absurd hx.2 hB2

theorem diff_locales_none_eq {A B : LocaleData} (hA : SortedKeys A) (hB : SortedKeys B)
    (h : diff_locales A B = none) : A = B := by
  unfold diff_locales at h
  by_cases hif : (collectMap (diffChangedList A B)).isEmpty
      && (collectMap (diffRemovedList A B)).isEmpty
  · have h1 := (Bool.and_eq_true .. ▸ hif).1
    have h2 := (Bool.and_eq_true .. ▸ hif).2
    rw [List.isEmpty_iff, collectMap_eq_nil_iff] at h1 h2
    unfold diffChangedList at h1
    unfold diffRemovedList at h2
    rw [List.filter_eq_nil_iff] at h1 h2
    refine (getVal_ext_sorted hA hB ?_).symm.symm
    intro k
    cases hBk : getVal B k with
    | some v =>
      have hmem := mem_of_getVal hBk
      have := h1 (k, v) hmem
      cases hAk : getVal A k with
      | none => rw [hAk] at this; simp at this
      | some w =>
        rw [hAk] at this
        simp only [bne_iff_ne, not_not] at this
        rw [this]
    | none =>
      cases hAk : getVal A k with
      | none => rfl
      | some w =>
        exfalso
        have hmem := mem_of_getVal hAk
        have := h2 (k, w) hmem
        simp only [containsKey, Bool.not_eq_true, not_not] at this
        rw [hBk] at this
        simp at this
  · rw [if_neg hif] at h
    exact absurd h (by simp)

end DiffLemmas

/-- **C1** Diff correctness: for all flat string-map documents `A`, `B` (in
the ascending-key map representation), `diff_locales A A` is the Empty
(`none`) result; the changed-or-added map of `diff_locales A B` contains
exactly the pairs `(k, B[k])` with `k` in `B` and either `k` absent from
`A` or `A[k] ≠ B[k]`; and the removed map contains exactly the pairs
`(k, A[k])` with `k` in `A` and absent from `B`. -/
theorem diff_locales_correct (A B : LocaleData) (hA : SortedKeys A) (hB : SortedKeys B) :
    diff_locales A A = none ∧
    (∀ k v, getVal (diffChanged A B) k = some v ↔
      getVal B k = some v ∧ getVal A k ≠ some v) ∧
    (∀ k v, getVal (diffRemoved A B) k = some v ↔
      getVal A k = some v ∧ getVal B k = none) := by
  refine ⟨diff_locales_self (nodupKeys_of_sortedKeys hA), ?_, ?_⟩
  · intro k v
    exact getVal_diffChanged hB
  · intro k v
    exact getVal_diffRemoved hA

/-- Witness for C1 at concrete documents
`A = {"farewell": "Bye", "greeting": "Hello"}`,
`B = {"greeting": "Hi there", "welcome": "Come in"}`. -/
theorem diff_locales_correct_witness :
    SortedKeys [("farewell", "Bye"), ("greeting", "Hello")] ∧
    SortedKeys [("greeting", "Hi there"), ("welcome", "Come in")] ∧
    (diff_locales [("farewell", "Bye"), ("greeting", "Hello")]
        [("farewell", "Bye"), ("greeting", "Hello")] = none ∧
    (∀ k v, getVal (diffChanged [("farewell", "Bye"), ("greeting", "Hello")]
        [("greeting", "Hi there"), ("welcome", "Come in")]) k = some v ↔
      getVal [("greeting", "Hi there"), ("welcome", "Come in")] k = some v ∧
        getVal [("farewell", "Bye"), ("greeting", "Hello")] k ≠ some v) ∧
    (∀ k v, getVal (diffRemoved [("farewell", "Bye"), ("greeting", "Hello")]
        [("greeting", "Hi there"), ("welcome", "Come in")]) k = some v ↔
      getVal [("farewell", "Bye"), ("greeting", "Hello")] k = some v ∧
        getVal [("greeting", "Hi there"), ("welcome", "Come in")] k = none)) :=
  ⟨by decide, by decide,
    diff_locales_correct _ _ (by decide) (by decide)⟩

/-- **C9** Short-circuit refinement: the diff with the
`original == current` identity short-circuit (`LocaleDataDiff::diff`,
src/types.rs) and the pure per-key scan (`diff_locales`, src/main.rs)
return identical results on every pair of documents; in particular on
`original = current` the per-key scan also yields the Empty result, so the
short-circuit never changes the outcome. -/
theorem diff_short_circuit_refines (original current : LocaleData)
    (ho : SortedKeys original) (hc : SortedKeys current) :
    LocaleDataDiff.diff original current = diff_locales original current := by
  unfold LocaleDataDiff.diff
  by_cases h : original = current
  · rw [if_pos h, h, diff_locales_self (nodupKeys_of_sortedKeys hc)]
  · rw [if_neg h]
    rfl

/-- Witness for C9 at the concrete pair
`original = {"a": "1", "b": "2"}`, `current = {"a": "1"}` (and, through
`diff_short_circuit_refines`, the equal-documents case is exercised by the
theorem itself). -/
theorem diff_short_circuit_refines_witness :
    SortedKeys [("a", "1"), ("b", "2")] ∧ SortedKeys [("a", "1")] ∧
    LocaleDataDiff.diff [("a", "1"), ("b", "2")] [("a", "1")]
      = diff_locales [("a", "1"), ("b", "2")] [("a", "1")] :=
  ⟨by decide, by decide,
    diff_short_circuit_refines _ _ (by decide) (by decide)⟩

/-! ## Locale document store -/

/-- The observable content of a locale file on disk: missing, present but
not parsable as a flat string map, or present with parsed data. -/
inductive FileContent where
  | absent
  | invalid
  | valid (data : LocaleData)
deriving DecidableEq

/-- `parse_locale` from src/main.rs: read-or-abort then parse-or-abort;
both a missing/unreadable file and an unparsable file are fatal. -/
def parse_locale : FileContent → Except String LocaleData
  | .absent => .error "Failed to open and read locale file."
  | .invalid => .error "Failed to parse locale file."
  | .valid d => .ok d

/-- `LocaleDocument::parse_data_from_file` from src/types.rs: a missing
file yields the sentinel `none` (the `Option` in the source, used to mean
"not generated yet"), while a file that exists but fails to parse as a
flat string map is fatal. -/
def parse_data_from_file : FileContent → Except String (Option LocaleData)
  | .absent => .ok none
  | .invalid => .error "Failed to parse locale file."
  | .valid d => .ok (some d)

/-- **C8** Load distinguishes absent from corrupt: loading from a missing
file yields the distinguishable absent sentinel (`ok none`, not an
error); loading a file that exists but does not parse as a flat string map
is a fatal error; and a parsed document is only ever produced from a file
actually holding that document, so a corrupt file never becomes an empty
or partial document. -/
theorem parse_distinguishes_absent_from_corrupt (fc : FileContent) (d : LocaleData)
    (h : parse_data_from_file fc = .ok (some d)) :
    fc = .valid d ∧
    parse_data_from_file .absent = .ok none ∧
    (∀ e, parse_data_from_file .absent ≠ .error e) ∧
    parse_data_from_file .invalid = .error "Failed to parse locale file." := by
  refine ⟨?_, rfl, ?_, rfl⟩
  · cases fc with
    | absent => simp [parse_data_from_file] at h
    | invalid => simp [parse_data_from_file] at h
    | valid d2 =>
      simp only [parse_data_from_file, Except.ok.injEq, Option.some.injEq] at h
      rw [h]
  · intro e he
    simp [parse_data_from_file] at he

/-- Witness for C8 at the concrete file content
`valid {"greeting": "Hello"}`. -/
theorem parse_distinguishes_absent_from_corrupt_witness :
    parse_data_from_file (.valid [("greeting", "Hello")])
        = .ok (some [("greeting", "Hello")]) ∧
    (FileContent.valid [("greeting", "Hello")] = .valid [("greeting", "Hello")] ∧
    parse_data_from_file .absent = .ok none ∧
    (∀ e, parse_data_from_file .absent ≠ .error e) ∧
    parse_data_from_file .invalid = .error "Failed to parse locale file.") :=
  ⟨rfl, parse_distinguishes_absent_from_corrupt _ _ rfl⟩

/-! ## Translation adapter -/

/-- The external DeepL translate capability (`api_connection.translate`):
takes the target language code and the ordered batch of source texts, and
returns an ordered batch of translated texts or a provider failure. -/
abbrev Provider := String → List String → Except String (List String)

/-- `get_raw_text_data` (src/types.rs) / `get_translated_text`
(src/main.rs): the document's values in enumeration order. In the source a
non-string value aborts; documents here are string-valued by the flat
string-map data model, so extraction is total. -/
def get_raw_text_data (data : LocaleData) : List String :=
  data.map Prod.snd

/-- `LocaleDocument::translate_data` from src/types.rs: check the entry
count against the supplied raw-text count, invoke the provider, check the
returned count against the submitted count (a mismatch is a fatal
invariant violation), and re-zip the i-th key of the document (in the same
enumeration order used to build the request) with the i-th returned text,
collecting the pairs into a fresh map. -/
def translate_data (provider : Provider) (source_data : LocaleData)
    (source_text : List String) (language : String) : Except String LocaleData :=
  if source_data.length ≠ source_text.length then
    .error "The number of locale data entries does not match the number of raw text entries."
  else
    match provider language source_text with
    | .error _ =>
      .error "Failed to translate values. This may be because of a connection issue with DeepL."
    | .ok translated_data =>
      if translated_data.length ≠ source_text.length then
        .error "The number of translated values does not match the number of source values."
      else
        .ok (collectMap (List.zip (source_data.map Prod.fst) translated_data))

theorem getVal_zip {α : Type} {ks : List String} {ts : List α} (hnd : ks.Nodup)
    {i : Nat} {k : String} {t : α} (hk : ks.get? i = some k) (ht : ts.get? i = some t) :
    getVal (List.zip ks ts) k = some t := by
  induction ks generalizing i ts with
  | nil => simp at hk
  | cons k0 ks2 ih =>
    cases ts with
    | nil => simp at ht
    | cons t0 ts2 =>
      cases i with
      | zero =>
        simp only [List.get?_cons_zero, Option.some.injEq] at hk ht
        subst hk
        subst ht
        exact getVal_cons_self
      | succ j =>
        simp only [List.get?_cons_succ] at hk ht
        have hne : k0 ≠ k := by
          intro he
          subst he
          exact (List.nodup_cons.mp hnd).1 (List.get?_mem hk)
        rw [List.zip_cons_cons, getVal_cons_ne hne]
        exact ih (List.nodup_cons.mp hnd).2 hk ht

/-- **C5** Batch fidelity: for every (sorted-representation) input
document and every provider response of the same length as the submitted
text list, `translate_data` succeeds with the map zipping the i-th key of
the document (in the enumeration order used to build the request) onto the
i-th returned text — so duplicate values across different keys each keep
their own translation and are never merged — and a provider response whose
length differs from the submitted list is a fatal error producing no
result map. -/
theorem translate_data_batch_fidelity (source_data : LocaleData)
    (hs : SortedKeys source_data) (provider : Provider) (language : String)
    (ts : List String)
    (hp : provider language (get_raw_text_data source_data) = .ok ts)
    (hlen : ts.length = source_data.length) :
    translate_data provider source_data (get_raw_text_data source_data) language
        = .ok (List.zip (source_data.map Prod.fst) ts) ∧
    (∀ i k t, (source_data.map Prod.fst).get? i = some k → ts.get? i = some t →
      getVal (List.zip (source_data.map Prod.fst) ts) k = some t) ∧
    (∀ provider2 ts2, provider2 language (get_raw_text_data source_data) = .ok ts2 →
      ts2.length ≠ (get_raw_text_data source_data).length →
      ∃ e, translate_data provider2 source_data (get_raw_text_data source_data) language
        = .error e) := by
  have hraw : (get_raw_text_data source_data).length = source_data.length := by
    unfold get_raw_text_data
    exact List.length_map ..
  refine ⟨?_, ?_, ?_⟩
  · unfold translate_data
    rw [if_neg (by rw [hraw]; exact fun h => h rfl)]
    simp only [hp]
    rw [if_neg (by rw [hraw, hlen]; exact fun h => h rfl)]
    have hsorted : SortedKeys (List.zip (source_data.map Prod.fst) ts) := by
      unfold SortedKeys
      rw [List.map_fst_zip _ _ (by rw [List.length_map, hlen])]
      exact hs
    rw [collectMap_eq_self hsorted]
  · intro i k t hk ht
    exact getVal_zip (nodupKeys_of_sortedKeys hs) hk ht
  · intro provider2 ts2 hp2 hlen2
    unfold translate_data
    rw [if_neg (by rw [hraw]; exact fun h => h rfl)]
    simp only [hp2]
    rw [if_pos hlen2]
    exact ⟨_, rfl⟩

/-- Witness for C5 at the concrete document
`{"farewell": "Bye", "greeting": "Bye"}` — two keys with duplicate values
— and the response `["Tschuess", "Wiedersehen"]`, which keeps a distinct
translation on each key. -/
theorem translate_data_batch_fidelity_witness :
    SortedKeys [("farewell", "Bye"), ("greeting", "Bye")] ∧
    (fun _ _ => Except.ok ["Tschuess", "Wiedersehen"] : Provider) "DE"
        (get_raw_text_data [("farewell", "Bye"), ("greeting", "Bye")])
      = .ok ["Tschuess", "Wiedersehen"] ∧
    (["Tschuess", "Wiedersehen"] : List String).length
        = ([("farewell", "Bye"), ("greeting", "Bye")] : LocaleData).length ∧
    (translate_data (fun _ _ => Except.ok ["Tschuess", "Wiedersehen"])
        [("farewell", "Bye"), ("greeting", "Bye")]
        (get_raw_text_data [("farewell", "Bye"), ("greeting", "Bye")]) "DE"
        = .ok (List.zip (([("farewell", "Bye"), ("greeting", "Bye")] : LocaleData).map
            Prod.fst) ["Tschuess", "Wiedersehen"]) ∧
    (∀ i k t,
        (([("farewell", "Bye"), ("greeting", "Bye")] : LocaleData).map Prod.fst).get? i
          = some k →
        (["Tschuess", "Wiedersehen"] : List String).get? i = some t →
      getVal (List.zip (([("farewell", "Bye"), ("greeting", "Bye")] : LocaleData).map
        Prod.fst) ["Tschuess", "Wiedersehen"]) k = some t) ∧
    (∀ provider2 ts2,
        provider2 "DE" (get_raw_text_data [("farewell", "Bye"), ("greeting", "Bye")])
          = .ok ts2 →
        ts2.length ≠ (get_raw_text_data [("farewell", "Bye"), ("greeting", "Bye")]).length →
      ∃ e, translate_data provider2 [("farewell", "Bye"), ("greeting", "Bye")]
        (get_raw_text_data [("farewell", "Bye"), ("greeting", "Bye")]) "DE"
        = .error e)) :=
  ⟨by decide, rfl, rfl,
    translate_data_batch_fidelity _ (by decide) _ _ _ rfl rfl⟩

/-! ## Manifest, languages, file system -/

/-- A language as in the source: a `(code, display name)` pair; language
identity flows through the code. -/
structure Language where
  code : String
  name : String
deriving DecidableEq

/-- `LocaleManifest` from src/main.rs: the source locale path plus the map
from enabled language code to derived locale path. -/
structure LocaleManifest where
  source_locale_path : String
  locale_paths : List (String × String)
deriving DecidableEq

/-- `LocaleManifest::enabled_languages` from src/main.rs: the available
target languages whose code has a path recorded in the manifest. -/
def enabled_languages (manifest : LocaleManifest) (available : List Language) :
    List Language :=
  available.filter (fun l => containsKey manifest.locale_paths l.code)

/-- The project file system, an association list from path to
`FileContent`; paths without a binding are absent files. -/
abbrev FileSystem := List (String × FileContent)

/-- `SOURCE_LOCALE_HISTORY_PATH` from src/main.rs. -/
def SOURCE_LOCALE_HISTORY_PATH : String := "./ltranslate/source-history.json"

/-- Read a path from the file system. -/
def fsGet (fs : FileSystem) (path : String) : FileContent :=
  (getVal fs path).getD .absent

/-- The observable effects of one `project update` / `project setup` run,
in program order: the provider calls issued (language code and submitted
batch), the locale-file writes performed (path and written data), whether
the manifest file was written, and the final result (`error` embeds the
fatal `exit`). -/
structure UpdateTrace where
  calls : List (String × List String)
  writes : List (String × LocaleData)
  manifestWritten : Bool
  result : Except String Unit

/-- Apply a run's locale-file writes to the file system (`File::create`
then `write_all`: create-or-truncate then write whole contents). -/
def applyWrites (fs : FileSystem) (writes : List (String × LocaleData)) : FileSystem :=
  writes.foldl (fun f w => insertVal f w.1 (.valid w.2)) fs

/-! ## Per-language translation loop (src/main.rs) -/

/-- `get_translated_text` from src/main.rs: the document's values in
enumeration order (same extraction as `get_raw_text_data`). -/
def get_translated_text (locale_data : LocaleData) : List String :=
  locale_data.map Prod.snd

/-- `create_locale_json` from src/main.rs: pair the i-th key of the source
data with the i-th translated text, inserting into a fresh map. -/
def create_locale_json (source_locale_data : LocaleData)
    (translated_data : List String) : LocaleData :=
  collectMap (List.zip (source_locale_data.map Prod.fst) translated_data)

/-- `translate_locale` from src/main.rs: submit the raw text batch to the
provider for one target language; a provider failure or a count mismatch
is fatal; otherwise re-zip the response onto the source keys. -/
def translate_locale (provider : Provider) (source_locale_data : LocaleData)
    (source_locale_text : List String) (target_language : Language) :
    Except String LocaleData :=
  match provider target_language.code source_locale_text with
  | .error _ =>
    .error "Failed to translate values. This may be because of a connection issue with DeepL."
  | .ok translated_values =>
    if translated_values.length ≠ source_locale_text.length then
      .error "The number of translated values does not match the number of source values."
    else
      .ok (create_locale_json source_locale_data translated_values)

/-- The per-language loop of `translate_locale_all` from src/main.rs, also
recording each provider call actually issued; on the first failure the
loop aborts, keeping the calls issued so far. -/
def translate_locale_go (provider : Provider) (source_locale_data : LocaleData)
    (source_locale_text : List String) :
    List Language → List (String × List String) × Except String (List (String × LocaleData))
  | [] => ([], .ok [])
  | l :: rest =>
    match translate_locale provider source_locale_data source_locale_text l with
    | .error e => ([(l.code, source_locale_text)], .error e)
    | .ok data =>
      let (calls, r) :=
        translate_locale_go provider source_locale_data source_locale_text rest
      ((l.code, source_locale_text) :: calls, r.map (fun xs => (l.code, data) :: xs))

/-- `translate_locale_all` from src/main.rs: extract the raw text batch
once, translate it once per target language, collecting results into a map
keyed by language code. -/
def translate_locale_all (provider : Provider) (source_locale_data : LocaleData)
    (target_languages : List Language) :
    List (String × List String) × Except String (List (String × LocaleData)) :=
  let source_locale_text := get_translated_text source_locale_data
  let (calls, r) :=
    translate_locale_go provider source_locale_data source_locale_text target_languages
  (calls, r.map collectMap)

/-! ## Update-cycle helpers (src/main.rs) -/

/-- The per-entry loop of `get_existing_locale_data_all` from src/main.rs:
parse the derived locale file of every manifest entry (fatal if missing or
unparsable). -/
def get_existing_locale_go (fs : FileSystem) :
    List (String × String) → Except String (List (String × LocaleData))
  | [] => .ok []
  | (lang_code, path) :: rest =>
    match parse_locale (fsGet fs path), get_existing_locale_go fs rest with
    | .error e, _ => .error e
    | .ok _, .error e => .error e
    | .ok data, .ok others => .ok ((lang_code, data) :: others)

/-- `get_existing_locale_data_all` from src/main.rs: the parsed data of
every derived locale listed in the manifest, keyed by language code (the
manifest map iterates in ascending code order, so the collected map keeps
that order). -/
def get_existing_locale_data_all (manifest : LocaleManifest) (fs : FileSystem) :
    Except String (List (String × LocaleData)) :=
  get_existing_locale_go fs manifest.locale_paths

/-- The inner loop of `remove_dead_keys` from src/main.rs: remove one key
from every language's data, fatal if it is absent anywhere. -/
def removeKeyAll (k : String) :
    List (String × LocaleData) → Except String (List (String × LocaleData))
  | [] => .ok []
  | (lang, data) :: rest =>
    if containsKey data k then
      match removeKeyAll k rest with
      | .error e => .error e
      | .ok rest2 => .ok ((lang, removeKey data k) :: rest2)
    else
      .error s!"Failed to remove key {k} from locale {lang}"

/-- `remove_dead_keys` from src/main.rs: clone the current data and drop
every removed key from every language's map, fatal if a listed key is not
actually present (the derived document drifted). -/
def remove_dead_keys (entries_to_remove : LocaleData)
    (current_locale_data_all : List (String × LocaleData)) :
    Except String (List (String × LocaleData)) :=
  match entries_to_remove with
  | [] => .ok current_locale_data_all
  | (k, _) :: rest =>
    match removeKeyAll k current_locale_data_all with
    | .error e => .error e
    | .ok next => remove_dead_keys rest next

/-- `LocaleDocument::remove_dead_entries` from src/types.rs: the
per-document removal loop — drop each listed key from the document, fatal
if it is not actually present. -/
def remove_dead_entries : LocaleData → LocaleData → Except String LocaleData
  | data, [] => .ok data
  | data, (k, _) :: rest =>
    if containsKey data k = true then remove_dead_entries (removeKey data k) rest
    else .error s!"Failed to remove key {k} from locale"

/-- `LocaleDocument::update_entries` (src/types.rs) and the merge loop of
`update_changed_or_added_keys` (src/main.rs): insert-or-overwrite each
translated entry into the document. -/
def update_entries (data : LocaleData) (to_update : LocaleData) : LocaleData :=
  to_update.foldl (fun d p => insertVal d p.1 p.2) data

/-- In-place replacement of one language's data (the `get_mut` mutation in
`update_changed_or_added_keys`). -/
def replaceVal (all : List (String × LocaleData)) (lang : String)
    (data : LocaleData) : List (String × LocaleData) :=
  all.map (fun p => if p.1 = lang then (p.1, data) else p)

/-- `update_changed_or_added_keys` from src/main.rs: for each language's
freshly translated data, find the working data for that language (fatal if
missing) and merge the translated entries in. -/
def update_changed_or_added_keys :
    List (String × LocaleData) → List (String × LocaleData) →
      Except String (List (String × LocaleData))
  | [], working => .ok working
  | (lang, updated_data) :: rest, working =>
    match getVal working lang with
    | none =>
      .error s!"Could not find locale data for language {lang}. This is likely a logic bug."
    | some new_data =>
      update_changed_or_added_keys rest
        (replaceVal working lang (update_entries new_data updated_data))

/-- `write_locale_file_all` from src/main.rs: write each manifest entry's
data to its path, removing the entry from the map as it goes; fatal if a
language has no data (writes performed before the failure are kept in the
trace). -/
def write_locale_file_all :
    List (String × String) → List (String × LocaleData) →
      List (String × LocaleData) × Except String Unit
  | [], _ => ([], .ok ())
  | (lang_code, path) :: rest, locale_data_all =>
    match getVal locale_data_all lang_code with
    | none =>
      ([], .error s!"Missing translation data for language {lang_code}. This is likely a logic bug.")
    | some locale_data =>
      let (ws, r) := write_locale_file_all rest (removeKey locale_data_all lang_code)
      ((path, locale_data) :: ws, r)

/-! ## The update and setup cycles (src/main.rs `project update` / `project setup`) -/

/-- The translate-and-merge step of the update cycle (src/main.rs lines
194-201): skipped entirely when the changed-or-added map is empty;
otherwise translate the changed-or-added batch once per enabled language
and merge the results into the working data. -/
def updateTranslatePhase (provider : Provider) (enabled_langs : List Language)
    (diff : LocaleDataDiff) (new_locale_data_all : List (String × LocaleData)) :
    List (String × List String) × Except String (List (String × LocaleData)) :=
  if diff.changed_or_added.isEmpty then ([], .ok new_locale_data_all)
  else
    let (calls, r) := translate_locale_all provider diff.changed_or_added enabled_langs
    match r with
    | .error e => (calls, .error e)
    | .ok updated_all =>
      match update_changed_or_added_keys updated_all new_locale_data_all with
      | .error e => (calls, .error e)
      | .ok merged => (calls, .ok merged)

/-- The write step of the update cycle (src/main.rs lines 203-204): write
every derived document, then the new snapshot history (`write_appdata`
with the current source data) and the manifest. -/
def updateWritePhase (manifest : LocaleManifest) (source_locale_current : LocaleData)
    (calls : List (String × List String)) (final_all : List (String × LocaleData)) :
    UpdateTrace :=
  let (writes, wr) := write_locale_file_all manifest.locale_paths final_all
  match wr with
  | .error e => ⟨calls, writes, false, .error e⟩
  | .ok _ =>
    ⟨calls, writes ++ [(SOURCE_LOCALE_HISTORY_PATH, source_locale_current)], true, .ok ()⟩

/-- The update cycle after pruning (src/main.rs lines 194-204): translate
and merge, then write everything back. -/
def updateAfterRemove (provider : Provider) (available : List Language)
    (manifest : LocaleManifest) (new_locale_data_all : List (String × LocaleData))
    (source_locale_current : LocaleData) (diff : LocaleDataDiff) : UpdateTrace :=
  match updateTranslatePhase provider (enabled_languages manifest available) diff
      new_locale_data_all with
  | (calls, .error e) => ⟨calls, [], false, .error e⟩
  | (calls, .ok final_all) => updateWritePhase manifest source_locale_current calls final_all

/-- The update cycle after loading the derived documents (src/main.rs
lines 191-204): prune the removed keys, then translate, merge and write. -/
def updateAfterExisting (provider : Provider) (available : List Language)
    (manifest : LocaleManifest) (current_locale_data_all : List (String × LocaleData))
    (source_locale_current : LocaleData) (diff : LocaleDataDiff) : UpdateTrace :=
  match remove_dead_keys diff.removed current_locale_data_all with
  | .error e => ⟨[], [], false, .error e⟩
  | .ok new_locale_data_all =>
    updateAfterRemove provider available manifest new_locale_data_all
      source_locale_current diff

/-- The update cycle after a non-Empty diff (src/main.rs lines 187-204):
parse all derived documents, prune, translate, merge and write. -/
def updateAfterDiff (provider : Provider) (available : List Language)
    (manifest : LocaleManifest) (fs : FileSystem)
    (source_locale_current : LocaleData) (diff : LocaleDataDiff) : UpdateTrace :=
  match get_existing_locale_data_all manifest fs with
  | .error e => ⟨[], [], false, .error e⟩
  | .ok current_locale_data_all =>
    updateAfterExisting provider available manifest current_locale_data_all
      source_locale_current diff

/-- The `project update` flow from src/main.rs: parse the snapshot history
and the current source (fatal if missing or corrupt), diff them, return
quietly when the diff is Empty, and otherwise run the rest of the cycle.
The trace records provider calls and file writes in program order: every
call strictly precedes every write. -/
def projectUpdate (provider : Provider) (available : List Language)
    (manifest : LocaleManifest) (fs : FileSystem) : UpdateTrace :=
  match parse_locale (fsGet fs SOURCE_LOCALE_HISTORY_PATH) with
  | .error e => ⟨[], [], false, .error e⟩
  | .ok source_locale_history =>
    match parse_locale (fsGet fs manifest.source_locale_path) with
    | .error e => ⟨[], [], false, .error e⟩
    | .ok source_locale_current =>
      match diff_locales source_locale_history source_locale_current with
      | none => ⟨[], [], false, .ok ()⟩
      | some diff =>
        updateAfterDiff provider available manifest fs source_locale_current diff

/-- The `project setup` flow from src/main.rs after the interactive steps
(target languages and their output paths already merged into the
manifest): parse the source locale (fatal if missing or corrupt),
translate it fully for every target language, write every derived
document, then write the snapshot history and the manifest. -/
def projectSetup (provider : Provider) (target_languages : List Language)
    (manifest : LocaleManifest) (fs : FileSystem) : UpdateTrace :=
  match parse_locale (fsGet fs manifest.source_locale_path) with
  | .error e => ⟨[], [], false, .error e⟩
  | .ok source_locale_data =>
    match translate_locale_all provider source_locale_data target_languages with
    | (calls, .error e) => ⟨calls, [], false, .error e⟩
    | (calls, .ok new_locale_data_all) =>
      updateWritePhase manifest source_locale_data calls new_locale_data_all

/-! ## The settings-management flow (src/main.rs `project manage`) -/

/-- `LanguageDiff` from src/main.rs. -/
structure LanguageDiff where
  added : List Language
  removed : List Language

/-- `diff_languages` from src/main.rs: languages selected but not enabled
are added; languages enabled but not selected are removed; `None` when the
selection is unchanged. -/
def diff_languages (original current : List Language) : Option LanguageDiff :=
  let added :=
    current.filter (fun curr => !(original.any (fun orig => orig.code == curr.code)))
  let removed :=
    original.filter (fun orig => !(current.any (fun curr => curr.code == orig.code)))
  if added.isEmpty && removed.isEmpty then none
  else some { added := added, removed := removed }

/-- The observable effects of one `project manage` run. -/
structure ManageTrace where
  newManifest : LocaleManifest
  manifestWritten : Bool
  localeWrites : List (String × LocaleData)

/-- The `project manage` → enabled-languages branch from src/main.rs
(lines 145-166): compute the language diff between the currently enabled
and the newly selected languages, drop each removed language's manifest
entry, insert each added language's chosen output path, and write the
manifest back (`write_appdata` with `None`: no locale or snapshot file is
written). The flow never reads the snapshot history or the current source
document and performs no pending-diff check. -/
def projectManageLanguages (available : List Language) (manifest : LocaleManifest)
    (new_selected_languages : List Language) (select_output : Language → String) :
    ManageTrace :=
  let enabled := enabled_languages manifest available
  match diff_languages enabled new_selected_languages with
  | none => ⟨manifest, true, []⟩
  | some d =>
    let afterRemove :=
      d.removed.foldl (fun ps l => removeKey ps l.code) manifest.locale_paths
    let afterAdd :=
      d.added.foldl (fun ps l => insertVal ps l.code (select_output l)) afterRemove
    ⟨{ manifest with locale_paths := afterAdd }, true, []⟩

/-! ## Supporting lemmas about the orchestration helpers -/

/-- Dropping a list of keys in sequence (the cumulative effect of
`remove_dead_keys` on one document). -/
def removeKeys {α : Type} (ks : List String) (m : List (String × α)) :
    List (String × α) :=
  ks.foldl removeKey m

section OrchestrationLemmas

variable {α : Type}

theorem containsKey_cons {k1 k : String} {v : α} {rest : List (String × α)} :
    containsKey ((k1, v) :: rest) k = (decide (k1 = k) || containsKey rest k) := by
  by_cases h : k1 = k
  · subst h
    simp [containsKey, getVal_cons_self]
  · simp [containsKey, getVal_cons_ne h, h]

theorem containsKey_iff {m : List (String × α)} {k : String} :
    containsKey m k = true ↔ ∃ v, getVal m k = some v := by
  simp [containsKey, Option.isSome_iff_exists]

theorem mem_keys_iff_containsKey {m : List (String × α)} {k : String} :
    k ∈ m.map Prod.fst ↔ containsKey m k = true := by
  constructor
  · intro h
    cases hg : getVal m k with
    | none => exact absurd h (getVal_eq_none_iff.mp hg)
    | some v => simp [containsKey, hg]
  · intro h
    rcases containsKey_iff.mp h with ⟨v, hv⟩
    exact mem_keys_of_getVal hv

theorem removeKey_cons_self {k : String} {v : α} {rest : List (String × α)} :
    removeKey ((k, v) :: rest) k = removeKey rest k := by
  simp [removeKey]

theorem removeKey_of_not_mem {m : List (String × α)} {k : String}
    (h : k ∉ m.map Prod.fst) : removeKey m k = m := by
  unfold removeKey
  rw [List.filter_eq_self]
  intro p hp
  simp only [bne_iff_ne]
  intro he
  exact h (he ▸ List.mem_map_of_mem Prod.fst hp)

theorem getVal_removeKeys {ks : List String} {m : List (String × α)} {k : String} :
    getVal (removeKeys ks m) k = if k ∈ ks then none else getVal m k := by
  induction ks generalizing m with
  | nil => simp [removeKeys]
  | cons k0 ks2 ih =>
    show getVal (removeKeys ks2 (removeKey m k0)) k = _
    rw [ih]
    by_cases h0 : k = k0
    · subst h0
      by_cases h2 : k ∈ ks2
      · simp [h2]
      · simp [h2, getVal_removeKey_self]
    · by_cases h2 : k ∈ ks2
      · simp [h2]
      · simp [h2, h0, getVal_removeKey_ne h0]

theorem applyWrites_append {fs : FileSystem} {ws1 ws2 : List (String × LocaleData)} :
    applyWrites fs (ws1 ++ ws2) = applyWrites (applyWrites fs ws1) ws2 :=
  List.foldl_append ..

theorem fsGet_insertVal_self {fs : FileSystem} {p : String} {c : FileContent} :
    fsGet (insertVal fs p c) p = c := by
  simp [fsGet, getVal_insertVal_self]

theorem fsGet_applyWrites_snoc {fs : FileSystem} {ws : List (String × LocaleData)}
    {p : String} {d : LocaleData} :
    fsGet (applyWrites fs (ws ++ [(p, d)])) p = .valid d := by
  rw [applyWrites_append]
  show fsGet (insertVal (applyWrites fs ws) p (.valid d)) p = .valid d
  exact fsGet_insertVal_self

theorem fsGet_applyWrites_of_not_mem {fs : FileSystem} {ws : List (String × LocaleData)}
    {p : String} (h : p ∉ ws.map Prod.fst) :
    fsGet (applyWrites fs ws) p = fsGet fs p := by
  induction ws generalizing fs with
  | nil => rfl
  | cons w rest ih =>
    obtain ⟨q, d⟩ := w
    have hq : p ≠ q := by
      intro he
      exact h (by simp [he])
    show fsGet (applyWrites (insertVal fs q (.valid d)) rest) p = fsGet fs p
    rw [ih (fun hm => h (List.mem_cons_of_mem _ hm))]
    simp [fsGet, getVal_insertVal_ne hq]

theorem forall₂_keys_eq {β : Type} {R : (String × String) → β → Prop}
    {paths : List (String × String)} {all : List (String × β)}
    (hf : List.Forall₂ (fun lp a => a.1 = lp.1 ∧ R lp a.2) paths all) :
    all.map Prod.fst = paths.map Prod.fst := by
  induction hf with
  | nil => rfl
  | cons h _ ih => simp [ih, h.1]

theorem write_locale_file_all_writes_sub {paths : List (String × String)}
    {all : List (String × LocaleData)} {pd : String × LocaleData}
    (h : pd ∈ (write_locale_file_all paths all).1) :
    pd.1 ∈ paths.map Prod.snd := by
  induction paths generalizing all with
  | nil => simp [write_locale_file_all] at h
  | cons lp rest ih =>
    obtain ⟨lang_code, path⟩ := lp
    revert h
    show pd ∈ (write_locale_file_all ((lang_code, path) :: rest) all).1 → _
    cases hg : getVal all lang_code with
    | none =>
      intro h
      simp only [write_locale_file_all, hg] at h
      exact absurd h (List.not_mem_nil pd)
    | some data =>
      intro h
      simp only [write_locale_file_all, hg] at h
      rcases List.mem_cons.mp h with h1 | h1
      · rw [h1]
        simp
      · exact List.mem_cons_of_mem _ (ih h1)

theorem write_locale_file_all_spec {R : (String × String) → LocaleData → Prop}
    {paths : List (String × String)} {all : List (String × LocaleData)}
    (hf : List.Forall₂ (fun lp a => a.1 = lp.1 ∧ R lp a.2) paths all)
    (hnd : NodupKeys paths) :
    ∃ ws, write_locale_file_all paths all = (ws, .ok ()) ∧
      List.Forall₂ (fun lp w => w.1 = lp.2 ∧ R lp w.2) paths ws := by
  induction hf with
  | nil => exact ⟨[], rfl, List.Forall₂.nil⟩
  | cons hhead htail ih =>
    rename_i lp a ps as
    obtain ⟨lang_code, path⟩ := lp
    obtain ⟨a1, a2⟩ := a
    obtain ⟨ha1, hR⟩ := hhead
    subst ha1
    have hndk : NodupKeys ps ∧ (a1 ∉ ps.map Prod.fst) := by
      unfold NodupKeys at hnd
      rw [List.map_cons] at hnd
      exact ⟨(List.nodup_cons.mp hnd).2, (List.nodup_cons.mp hnd).1⟩
    have hrem : removeKey ((a1, a2) :: as) a1 = as := by
      rw [removeKey_cons_self, removeKey_of_not_mem]
      rw [forall₂_keys_eq htail]
      exact hndk.2
    rcases ih hndk.1 with ⟨ws, hw, hfw⟩
    refine ⟨(path, a2) :: ws, ?_, List.Forall₂.cons ⟨rfl, hR⟩ hfw⟩
    simp only [write_locale_file_all, getVal_cons_self, hrem, hw]

theorem get_existing_locale_go_ok {fs : FileSystem} {paths : List (String × String)}
    (h : ∀ lp ∈ paths, ∃ od, parse_locale (fsGet fs lp.2) = .ok od) :
    ∃ all, get_existing_locale_go fs paths = .ok all ∧
      List.Forall₂ (fun lp a => a.1 = lp.1 ∧ parse_locale (fsGet fs lp.2) = .ok a.2)
        paths all := by
  induction paths with
  | nil => exact ⟨[], rfl, List.Forall₂.nil⟩
  | cons lp rest ih =>
    obtain ⟨lang_code, path⟩ := lp
    rcases h (lang_code, path) (List.mem_cons_self _ _) with ⟨od, hod⟩
    rcases ih (fun q hq => h q (List.mem_cons_of_mem _ hq)) with ⟨all2, hall2, hf2⟩
    refine ⟨(lang_code, od) :: all2, ?_, List.Forall₂.cons ⟨rfl, hod⟩ hf2⟩
    simp only [get_existing_locale_go, hod, hall2]

theorem removeKeyAll_ok {k : String} {all : List (String × LocaleData)}
    (h : ∀ a ∈ all, containsKey a.2 k = true) :
    removeKeyAll k all = .ok (all.map (fun a => (a.1, removeKey a.2 k))) := by
  induction all with
  | nil => rfl
  | cons a rest ih =>
    obtain ⟨lang, data⟩ := a
    have hc : containsKey data k = true := h (lang, data) (List.mem_cons_self _ _)
    have hrest := ih (fun q hq => h q (List.mem_cons_of_mem _ hq))
    simp only [removeKeyAll, hc, if_pos, hrest, List.map_cons]

theorem remove_dead_keys_ok {entries : LocaleData} {all : List (String × LocaleData)}
    (hnd : NodupKeys entries)
    (h : ∀ a ∈ all, ∀ k, containsKey entries k = true → containsKey a.2 k = true) :
    remove_dead_keys entries all
      = .ok (all.map (fun a => (a.1, removeKeys (entries.map Prod.fst) a.2))) := by
  induction entries generalizing all with
  | nil =>
    show Except.ok all = _
    simp [removeKeys]
  | cons e rest ih =>
    obtain ⟨k, v⟩ := e
    have hck : ∀ a ∈ all, containsKey a.2 k = true := by
      intro a ha
      refine h a ha k ?_
      simp [containsKey_cons]
    have hndr : NodupKeys rest ∧ k ∉ rest.map Prod.fst := by
      unfold NodupKeys at hnd
      rw [List.map_cons] at hnd
      exact ⟨(List.nodup_cons.mp hnd).2, (List.nodup_cons.mp hnd).1⟩
    have hstep := removeKeyAll_ok hck
    have hrest : remove_dead_keys rest (all.map (fun a => (a.1, removeKey a.2 k)))
        = .ok ((all.map (fun a => (a.1, removeKey a.2 k))).map
            (fun a => (a.1, removeKeys (rest.map Prod.fst) a.2))) := by
      refine ih hndr.1 ?_
      intro a ha k2 hk2
      rcases List.mem_map.mp ha with ⟨b, hb, hba⟩
      have hk2r : k2 ∈ rest.map Prod.fst := mem_keys_iff_containsKey.mpr hk2
      have hkne : k2 ≠ k := fun he => hndr.2 (he ▸ hk2r)
      have horig : containsKey b.2 k2 = true := by
        refine h b hb k2 ?_
        rw [containsKey_cons]
        simp [hk2]
      rw [← hba]
      show containsKey (removeKey b.2 k) k2 = true
      rw [containsKey_removeKey]
      simp [hkne, horig]
    show (match removeKeyAll k all with
      | Except.error e => Except.error e
      | Except.ok next => remove_dead_keys rest next) = _
    rw [hstep]
    show remove_dead_keys rest (all.map (fun a => (a.1, removeKey a.2 k))) = _
    rw [hrest, List.map_map]
    rfl

theorem remove_dead_entries_ok {od : LocaleData} {toRemove : LocaleData}
    (hnd : NodupKeys toRemove)
    (hcont : ∀ k, containsKey toRemove k = true → containsKey od k = true) :
    remove_dead_entries od toRemove = .ok (removeKeys (toRemove.map Prod.fst) od) := by
  induction toRemove generalizing od with
  | nil => rfl
  | cons e rest ih =>
    obtain ⟨k, v⟩ := e
    have hck : containsKey od k = true := by
      refine hcont k ?_
      simp [containsKey_cons]
    have hndr : NodupKeys rest ∧ k ∉ rest.map Prod.fst := by
      unfold NodupKeys at hnd
      rw [List.map_cons] at hnd
      exact ⟨(List.nodup_cons.mp hnd).2, (List.nodup_cons.mp hnd).1⟩
    show (if containsKey od k = true then remove_dead_entries (removeKey od k) rest
      else _) = _
    rw [if_pos hck]
    have : remove_dead_entries (removeKey od k) rest
        = .ok (removeKeys (rest.map Prod.fst) (removeKey od k)) := by
      refine ih hndr.1 ?_
      intro k2 hk2
      have hk2r : k2 ∈ rest.map Prod.fst := mem_keys_iff_containsKey.mpr hk2
      have hkne : k2 ≠ k := fun he => hndr.2 (he ▸ hk2r)
      have hfull : containsKey od k2 = true := by
        refine hcont k2 ?_
        rw [containsKey_cons]
        simp [hk2]
      rw [containsKey_removeKey]
      simp [hkne, hfull]
    rw [this]
    rfl

theorem containsKey_update_entries {d u : LocaleData} {k : String} :
    containsKey (update_entries d u) k = (containsKey u k || containsKey d k) := by
  induction u generalizing d with
  | nil => simp [update_entries, containsKey]
  | cons e rest ih =>
    obtain ⟨k0, v0⟩ := e
    show containsKey (update_entries (insertVal d k0 v0) rest) k = _
    rw [ih, containsKey_insertVal, containsKey_cons]
    by_cases h : k = k0
    · subst h
      simp
    · have h2 : k0 ≠ k := Ne.symm h
      simp [h, h2]

theorem forall₂_mem_right {γ δ : Type} {R : γ → δ → Prop} {ps : List γ} {as : List δ}
    (hf : List.Forall₂ R ps as) {a : δ} (ha : a ∈ as) : ∃ p ∈ ps, R p a := by
  induction hf with
  | nil => simp at ha
  | cons h t ih =>
    rcases List.mem_cons.mp ha with h1 | h1
    · exact ⟨_, List.mem_cons_self _ _, h1 ▸ h⟩
    · rcases ih h1 with ⟨p, hp, hr⟩
      exact ⟨p, List.mem_cons_of_mem _ hp, hr⟩

theorem diff_locales_some_sorted {A B : LocaleData} {d : LocaleDataDiff}
    (h : diff_locales A B = some d) :
    SortedKeys d.changed_or_added ∧ SortedKeys d.removed := by
  unfold diff_locales at h
  by_cases hif : (collectMap (diffChangedList A B)).isEmpty
      && (collectMap (diffRemovedList A B)).isEmpty
  · rw [if_pos hif] at h
    exact absurd h (by simp)
  · rw [if_neg hif] at h
    have hd := Option.some.inj h
    rw [← hd]
    exact ⟨sortedKeys_collectMap _, sortedKeys_collectMap _⟩

theorem updateTranslatePhase_empty {provider : Provider} {enabled : List Language}
    {diff : LocaleDataDiff} {newAll : List (String × LocaleData)}
    (h : diff.changed_or_added.isEmpty = true) :
    updateTranslatePhase provider enabled diff newAll = ([], .ok newAll) := by
  unfold updateTranslatePhase
  rw [if_pos h]

theorem updateTranslatePhase_failure {provider : Provider} {enabled : List Language}
    {diff : LocaleDataDiff} {newAll : List (String × LocaleData)}
    {calls : List (String × List String)} {e : String}
    (h : diff.changed_or_added.isEmpty = false)
    (htr : translate_locale_all provider diff.changed_or_added enabled
      = (calls, .error e)) :
    updateTranslatePhase provider enabled diff newAll = (calls, .error e) := by
  unfold updateTranslatePhase
  rw [if_neg (by simp [h])]
  simp only [htr]

theorem updateWritePhase_ok {manifest : LocaleManifest} {C : LocaleData}
    {calls : List (String × List String)} {final_all : List (String × LocaleData)}
    {ws : List (String × LocaleData)}
    (hw : write_locale_file_all manifest.locale_paths final_all = (ws, .ok ())) :
    updateWritePhase manifest C calls final_all
      = ⟨calls, ws ++ [(SOURCE_LOCALE_HISTORY_PATH, C)], true, .ok ()⟩ := by
  unfold updateWritePhase
  simp only [hw]

theorem updateWritePhase_ok_inv {manifest : LocaleManifest} {C : LocaleData}
    {calls : List (String × List String)} {final_all : List (String × LocaleData)}
    (hok : (updateWritePhase manifest C calls final_all).result = .ok ()) :
    ∃ ws, write_locale_file_all manifest.locale_paths final_all = (ws, .ok ()) ∧
      updateWritePhase manifest C calls final_all
        = ⟨calls, ws ++ [(SOURCE_LOCALE_HISTORY_PATH, C)], true, .ok ()⟩ := by
  revert hok
  unfold updateWritePhase
  cases hw : write_locale_file_all manifest.locale_paths final_all with
  | mk ws wr =>
    cases wr with
    | error e =>
      intro hok
      exact absurd hok (by simp)
    | ok u =>
      cases u
      intro _
      refine ⟨ws, ?_, ?_⟩
      · rfl
      · simp

theorem updateAfterRemove_ok_inv {provider : Provider} {available : List Language}
    {manifest : LocaleManifest} {newAll : List (String × LocaleData)}
    {C : LocaleData} {diff : LocaleDataDiff}
    (hok : (updateAfterRemove provider available manifest newAll C diff).result
      = .ok ()) :
    ∃ calls final_all ws,
      updateTranslatePhase provider (enabled_languages manifest available) diff newAll
        = (calls, .ok final_all) ∧
      write_locale_file_all manifest.locale_paths final_all = (ws, .ok ()) ∧
      updateAfterRemove provider available manifest newAll C diff
        = ⟨calls, ws ++ [(SOURCE_LOCALE_HISTORY_PATH, C)], true, .ok ()⟩ := by
  revert hok
  unfold updateAfterRemove
  cases htp : updateTranslatePhase provider (enabled_languages manifest available)
      diff newAll with
  | mk calls tr =>
    cases tr with
    | error e =>
      intro hok
      exact absurd hok (by simp)
    | ok final_all =>
      intro hok
      rcases updateWritePhase_ok_inv hok with ⟨ws, hw, heq⟩
      exact ⟨calls, final_all, ws, rfl, hw, heq⟩

theorem updateAfterExisting_ok_inv {provider : Provider} {available : List Language}
    {manifest : LocaleManifest} {all : List (String × LocaleData)}
    {C : LocaleData} {diff : LocaleDataDiff}
    (hok : (updateAfterExisting provider available manifest all C diff).result
      = .ok ()) :
    ∃ newAll calls final_all ws,
      remove_dead_keys diff.removed all = .ok newAll ∧
      updateTranslatePhase provider (enabled_languages manifest available) diff newAll
        = (calls, .ok final_all) ∧
      write_locale_file_all manifest.locale_paths final_all = (ws, .ok ()) ∧
      updateAfterExisting provider available manifest all C diff
        = ⟨calls, ws ++ [(SOURCE_LOCALE_HISTORY_PATH, C)], true, .ok ()⟩ := by
  revert hok
  unfold updateAfterExisting
  cases hrm : remove_dead_keys diff.removed all with
  | error e =>
    intro hok
    exact absurd hok (by simp)
  | ok newAll =>
    intro hok
    rcases updateAfterRemove_ok_inv hok with ⟨calls, final_all, ws, htp, hw, heq⟩
    exact ⟨newAll, calls, final_all, ws, rfl, htp, hw, heq⟩

theorem updateAfterDiff_ok_inv {provider : Provider} {available : List Language}
    {manifest : LocaleManifest} {fs : FileSystem} {C : LocaleData} {diff : LocaleDataDiff}
    (hok : (updateAfterDiff provider available manifest fs C diff).result = .ok ()) :
    ∃ all newAll calls final_all ws,
      get_existing_locale_data_all manifest fs = .ok all ∧
      remove_dead_keys diff.removed all = .ok newAll ∧
      updateTranslatePhase provider (enabled_languages manifest available) diff newAll
        = (calls, .ok final_all) ∧
      write_locale_file_all manifest.locale_paths final_all = (ws, .ok ()) ∧
      updateAfterDiff provider available manifest fs C diff
        = ⟨calls, ws ++ [(SOURCE_LOCALE_HISTORY_PATH, C)], true, .ok ()⟩ := by
  revert hok
  unfold updateAfterDiff
  cases hex : get_existing_locale_data_all manifest fs with
  | error e =>
    intro hok
    exact absurd hok (by simp)
  | ok all =>
    intro hok
    rcases updateAfterExisting_ok_inv hok with ⟨newAll, calls, final_all, ws, hrm, htp, hw, heq⟩
    exact ⟨all, newAll, calls, final_all, ws, rfl, hrm, htp, hw, heq⟩

theorem projectUpdate_noop {provider : Provider} {available : List Language}
    {manifest : LocaleManifest} {fs : FileSystem} {H C : LocaleData}
    (hh : fsGet fs SOURCE_LOCALE_HISTORY_PATH = .valid H)
    (hs : fsGet fs manifest.source_locale_path = .valid C)
    (hd : diff_locales H C = none) :
    projectUpdate provider available manifest fs = ⟨[], [], false, .ok ()⟩ := by
  unfold projectUpdate
  rw [hh, hs]
  simp only [parse_locale, hd]

theorem projectUpdate_eq_afterDiff {provider : Provider} {available : List Language}
    {manifest : LocaleManifest} {fs : FileSystem} {H C : LocaleData} {diff : LocaleDataDiff}
    (hh : fsGet fs SOURCE_LOCALE_HISTORY_PATH = .valid H)
    (hs : fsGet fs manifest.source_locale_path = .valid C)
    (hd : diff_locales H C = some diff) :
    projectUpdate provider available manifest fs
      = updateAfterDiff provider available manifest fs C diff := by
  unfold projectUpdate
  rw [hh, hs]
  simp only [parse_locale, hd]

theorem projectSetup_ok_inv {provider : Provider} {target_languages : List Language}
    {manifest : LocaleManifest} {fs : FileSystem} {C : LocaleData}
    (hs : fsGet fs manifest.source_locale_path = .valid C)
    (hok : (projectSetup provider target_languages manifest fs).result = .ok ()) :
    ∃ calls allData ws,
      translate_locale_all provider C target_languages = (calls, .ok allData) ∧
      write_locale_file_all manifest.locale_paths allData = (ws, .ok ()) ∧
      projectSetup provider target_languages manifest fs
        = ⟨calls, ws ++ [(SOURCE_LOCALE_HISTORY_PATH, C)], true, .ok ()⟩ := by
  revert hok
  unfold projectSetup
  rw [hs]
  simp only [parse_locale]
  cases htr : translate_locale_all provider C target_languages with
  | mk calls r =>
    cases r with
    | error e =>
      intro hok
      exact absurd hok (by simp)
    | ok allData =>
      intro hok
      rcases updateWritePhase_ok_inv hok with ⟨ws, hw, heq⟩
      exact ⟨calls, allData, ws, rfl, hw, heq⟩

end OrchestrationLemmas

/-! ## The frame and invariant theorems for the update cycle -/

/-- A concrete one-language demonstration project used by witnesses. -/
def demoManifest : LocaleManifest := ⟨"en.json", [("DE", "de.json")]⟩

/-- The one available target language of the demonstration project. -/
def demoAvailable : List Language := [⟨"DE", "German"⟩]

/-- Demonstration file system whose source changed since the snapshot. -/
def demoFs : FileSystem :=
  [(SOURCE_LOCALE_HISTORY_PATH, .valid [("greeting", "Hello")]),
    ("en.json", .valid [("greeting", "Hi")]),
    ("de.json", .valid [("greeting", "Hallo")])]

/-- **C2** Empty-diff no-op: when the snapshot history equals the current
source document, the update cycle issues no provider call and performs no
file write (derived documents, snapshot and manifest untouched), exiting
cleanly; hence a second update run immediately after a successful one,
with no source change in between, issues no call and writes nothing. -/
theorem update_empty_diff_noop (provider : Provider) (available : List Language)
    (manifest : LocaleManifest) (fs : FileSystem) (H C : LocaleData)
    (hh : fsGet fs SOURCE_LOCALE_HISTORY_PATH = .valid H)
    (hs : fsGet fs manifest.source_locale_path = .valid C)
    (hH : SortedKeys H) (hC : SortedKeys C)
    (hsrc1 : manifest.source_locale_path ≠ SOURCE_LOCALE_HISTORY_PATH)
    (hsrc2 : manifest.source_locale_path ∉ manifest.locale_paths.map Prod.snd) :
    (H = C → projectUpdate provider available manifest fs = ⟨[], [], false, .ok ()⟩) ∧
    ((projectUpdate provider available manifest fs).result = .ok () →
      projectUpdate provider available manifest
          (applyWrites fs (projectUpdate provider available manifest fs).writes)
        = ⟨[], [], false, .ok ()⟩) := by
  constructor
  · intro heq
    subst heq
    exact projectUpdate_noop hh hs (diff_locales_self (nodupKeys_of_sortedKeys hH))
  · intro hok
    cases hd : diff_locales H C with
    | none =>
      rw [projectUpdate_noop hh hs hd]
      exact projectUpdate_noop hh hs hd
    | some diff =>
      have heq := @projectUpdate_eq_afterDiff provider available _ _ _ _ _ hh hs hd
      rw [heq] at hok
      rcases updateAfterDiff_ok_inv hok with
        ⟨all, newAll, calls, final_all, ws, hex, hrm, htp, hw, hfin⟩
      rw [heq, hfin]
      have hws_sub : ∀ pd ∈ ws, pd.1 ∈ manifest.locale_paths.map Prod.snd := by
        intro pd hpd
        have hpd2 : pd ∈ (write_locale_file_all manifest.locale_paths final_all).1 := by
          rw [hw]
          exact hpd
        exact write_locale_file_all_writes_sub hpd2
      have hnotmem : manifest.source_locale_path
          ∉ (ws ++ [(SOURCE_LOCALE_HISTORY_PATH, C)]).map Prod.fst := by
        rw [List.map_append]
        intro hmem
        rcases List.mem_append.mp hmem with hm | hm
        · rcases List.mem_map.mp hm with ⟨pd, hpd, hpd1⟩
          exact hsrc2 (hpd1 ▸ hws_sub pd hpd)
        · simp only [List.map_cons, List.map_nil, List.mem_singleton] at hm
          exact hsrc1 hm
      have hfs1 : fsGet (applyWrites fs (ws ++ [(SOURCE_LOCALE_HISTORY_PATH, C)]))
          SOURCE_LOCALE_HISTORY_PATH = .valid C := fsGet_applyWrites_snoc
      have hfs2 : fsGet (applyWrites fs (ws ++ [(SOURCE_LOCALE_HISTORY_PATH, C)]))
          manifest.source_locale_path = .valid C := by
        rw [fsGet_applyWrites_of_not_mem hnotmem, hs]
      exact projectUpdate_noop hfs1 hfs2
        (diff_locales_self (nodupKeys_of_sortedKeys hC))

/-- Witness for C2 at a concrete one-language project whose history equals
its source document. -/
theorem update_empty_diff_noop_witness :
    fsGet [(SOURCE_LOCALE_HISTORY_PATH, FileContent.valid [("greeting", "Hello")]),
        ("en.json", .valid [("greeting", "Hello")]),
        ("de.json", .valid [("greeting", "Hallo")])] SOURCE_LOCALE_HISTORY_PATH
      = .valid [("greeting", "Hello")] ∧
    fsGet [(SOURCE_LOCALE_HISTORY_PATH, FileContent.valid [("greeting", "Hello")]),
        ("en.json", .valid [("greeting", "Hello")]),
        ("de.json", .valid [("greeting", "Hallo")])]
        (LocaleManifest.mk "en.json" [("DE", "de.json")]).source_locale_path
      = .valid [("greeting", "Hello")] ∧
    ((([("greeting", "Hello")] : LocaleData) = [("greeting", "Hello")] →
      projectUpdate (fun _ ts => .ok ts) [⟨"DE", "German"⟩]
          (LocaleManifest.mk "en.json" [("DE", "de.json")])
          [(SOURCE_LOCALE_HISTORY_PATH, FileContent.valid [("greeting", "Hello")]),
            ("en.json", .valid [("greeting", "Hello")]),
            ("de.json", .valid [("greeting", "Hallo")])]
        = ⟨[], [], false, .ok ()⟩) ∧
    ((projectUpdate (fun _ ts => .ok ts) [⟨"DE", "German"⟩]
          (LocaleManifest.mk "en.json" [("DE", "de.json")])
          [(SOURCE_LOCALE_HISTORY_PATH, FileContent.valid [("greeting", "Hello")]),
            ("en.json", .valid [("greeting", "Hello")]),
            ("de.json", .valid [("greeting", "Hallo")])]).result = .ok () →
      projectUpdate (fun _ ts => .ok ts) [⟨"DE", "German"⟩]
          (LocaleManifest.mk "en.json" [("DE", "de.json")])
          (applyWrites [(SOURCE_LOCALE_HISTORY_PATH, FileContent.valid [("greeting", "Hello")]),
              ("en.json", .valid [("greeting", "Hello")]),
              ("de.json", .valid [("greeting", "Hallo")])]
            (projectUpdate (fun _ ts => .ok ts) [⟨"DE", "German"⟩]
              (LocaleManifest.mk "en.json" [("DE", "de.json")])
              [(SOURCE_LOCALE_HISTORY_PATH, FileContent.valid [("greeting", "Hello")]),
                ("en.json", .valid [("greeting", "Hello")]),
                ("de.json", .valid [("greeting", "Hallo")])]).writes)
        = ⟨[], [], false, .ok ()⟩)) :=
  ⟨by decide, by decide,
    update_empty_diff_noop _ _ _ _ _ _ (by decide) (by decide) (by decide) (by decide)
      (by decide) (by decide)⟩

/-- **C3** Atomicity on provider failure: in the update cycle every
translation-provider call precedes every file write, so when the provider
fails for some enabled language (the translate-and-merge batch returns an
error), the run performs the calls made so far but writes nothing: no
derived document write, no snapshot write, no manifest write, and the file
system is left exactly as it was. -/
theorem update_provider_failure_no_writes (provider : Provider)
    (available : List Language) (manifest : LocaleManifest) (fs : FileSystem)
    (H C : LocaleData) (d : LocaleDataDiff) (all newAll : List (String × LocaleData))
    (calls : List (String × List String)) (e : String)
    (hh : fsGet fs SOURCE_LOCALE_HISTORY_PATH = .valid H)
    (hs : fsGet fs manifest.source_locale_path = .valid C)
    (hd : diff_locales H C = some d)
    (hch : d.changed_or_added.isEmpty = false)
    (hex : get_existing_locale_data_all manifest fs = .ok all)
    (hrm : remove_dead_keys d.removed all = .ok newAll)
    (hfail : translate_locale_all provider d.changed_or_added
        (enabled_languages manifest available) = (calls, .error e)) :
    projectUpdate provider available manifest fs = ⟨calls, [], false, .error e⟩ ∧
    applyWrites fs (projectUpdate provider available manifest fs).writes = fs := by
  have h1 : updateTranslatePhase provider (enabled_languages manifest available) d newAll
      = (calls, .error e) := updateTranslatePhase_failure hch hfail
  have h2 : updateAfterRemove provider available manifest newAll C d
      = ⟨calls, [], false, .error e⟩ := by
    unfold updateAfterRemove
    simp only [h1]
  have h3 : updateAfterExisting provider available manifest all C d
      = ⟨calls, [], false, .error e⟩ := by
    unfold updateAfterExisting
    simp only [hrm, h2]
  have h4 : updateAfterDiff provider available manifest fs C d
      = ⟨calls, [], false, .error e⟩ := by
    unfold updateAfterDiff
    simp only [hex, h3]
  rw [projectUpdate_eq_afterDiff hh hs hd, h4]
  exact ⟨rfl, rfl⟩

/-- Witness for C3: the demonstration project with a changed greeting and
a provider that is down; the run records the one issued call and leaves
the file system untouched. -/
theorem update_provider_failure_no_writes_witness :
    fsGet demoFs SOURCE_LOCALE_HISTORY_PATH = .valid [("greeting", "Hello")] ∧
    diff_locales [("greeting", "Hello")] [("greeting", "Hi")]
      = some ⟨[("greeting", "Hi")], []⟩ ∧
    translate_locale_all (fun _ _ => .error "down") [("greeting", "Hi")]
        (enabled_languages demoManifest demoAvailable)
      = ([("DE", ["Hi"])],
          .error "Failed to translate values. This may be because of a connection issue with DeepL.") ∧
    (projectUpdate (fun _ _ => .error "down") demoAvailable demoManifest demoFs
      = ⟨[("DE", ["Hi"])], [], false,
          .error "Failed to translate values. This may be because of a connection issue with DeepL."⟩ ∧
    applyWrites demoFs
        (projectUpdate (fun _ _ => .error "down") demoAvailable demoManifest demoFs).writes
      = demoFs) :=
  ⟨by decide, by decide, rfl,
    update_provider_failure_no_writes (fun _ _ => .error "down") demoAvailable
      demoManifest demoFs [("greeting", "Hello")] [("greeting", "Hi")]
      ⟨[("greeting", "Hi")], []⟩ [("DE", [("greeting", "Hallo")])]
      [("DE", [("greeting", "Hallo")])] [("DE", ["Hi"])]
      "Failed to translate values. This may be because of a connection issue with DeepL."
      (by decide) (by decide) (by decide) (by decide) rfl rfl rfl⟩

/-- **C4** Snapshot invariant: after every successful update cycle — and
after initial setup — the snapshot history file holds exactly the current
source document as read at the start of the run (in the Empty-diff case
nothing is written and the untouched snapshot already equals the source). -/
theorem snapshot_invariant (provider : Provider)
    (available target_languages : List Language) (manifest : LocaleManifest)
    (fs : FileSystem) (H C : LocaleData)
    (hh : fsGet fs SOURCE_LOCALE_HISTORY_PATH = .valid H)
    (hs : fsGet fs manifest.source_locale_path = .valid C)
    (hH : SortedKeys H) (hC : SortedKeys C) :
    ((projectUpdate provider available manifest fs).result = .ok () →
      fsGet (applyWrites fs (projectUpdate provider available manifest fs).writes)
        SOURCE_LOCALE_HISTORY_PATH = .valid C) ∧
    ((projectSetup provider target_languages manifest fs).result = .ok () →
      fsGet (applyWrites fs (projectSetup provider target_languages manifest fs).writes)
        SOURCE_LOCALE_HISTORY_PATH = .valid C) := by
  constructor
  · intro hok
    cases hd : diff_locales H C with
    | none =>
      rw [projectUpdate_noop hh hs hd]
      show fsGet fs SOURCE_LOCALE_HISTORY_PATH = .valid C
      rw [hh, diff_locales_none_eq hH hC hd]
    | some diff =>
      have heq := @projectUpdate_eq_afterDiff provider available _ _ _ _ _ hh hs hd
      rw [heq] at hok
      rcases updateAfterDiff_ok_inv hok with
        ⟨all, newAll, calls, final_all, ws, hex, hrm, htp, hw, hfin⟩
      rw [heq, hfin]
      exact fsGet_applyWrites_snoc
  · intro hok
    rcases projectSetup_ok_inv hs hok with ⟨calls, allData, ws, htr, hw, hfin⟩
    rw [hfin]
    exact fsGet_applyWrites_snoc

/-- Witness for C4 at the demonstration project with the identity
provider; both the update and the setup flow succeed there. -/
theorem snapshot_invariant_witness :
    fsGet demoFs SOURCE_LOCALE_HISTORY_PATH = .valid [("greeting", "Hello")] ∧
    SortedKeys [("greeting", "Hi")] ∧
    ((projectUpdate (fun _ ts => .ok ts) demoAvailable demoManifest demoFs).result
        = .ok () →
      fsGet (applyWrites demoFs
          (projectUpdate (fun _ ts => .ok ts) demoAvailable demoManifest demoFs).writes)
        SOURCE_LOCALE_HISTORY_PATH = .valid [("greeting", "Hi")]) ∧
    ((projectSetup (fun _ ts => .ok ts) demoAvailable demoManifest demoFs).result
        = .ok () →
      fsGet (applyWrites demoFs
          (projectSetup (fun _ ts => .ok ts) demoAvailable demoManifest demoFs).writes)
        SOURCE_LOCALE_HISTORY_PATH = .valid [("greeting", "Hi")]) :=
  ⟨by decide, by decide,
    (snapshot_invariant (fun _ ts => .ok ts) demoAvailable demoAvailable demoManifest
      demoFs [("greeting", "Hello")] [("greeting", "Hi")] (by decide) (by decide)
      (by decide) (by decide)).1,
    (snapshot_invariant (fun _ ts => .ok ts) demoAvailable demoAvailable demoManifest
      demoFs [("greeting", "Hello")] [("greeting", "Hi")] (by decide) (by decide)
      (by decide) (by decide)).2⟩

/-- **C6** Pure-removal cycle: when the diff has an empty changed-or-added
map and a non-empty removed map, the update cycle issues no
translation-provider call, succeeds, and writes each derived document back
with exactly the removed keys deleted and every other entry unchanged
(plus the snapshot write at the end). -/
theorem pure_removal_cycle (provider : Provider) (available : List Language)
    (manifest : LocaleManifest) (fs : FileSystem) (H C : LocaleData) (d : LocaleDataDiff)
    (hh : fsGet fs SOURCE_LOCALE_HISTORY_PATH = .valid H)
    (hs : fsGet fs manifest.source_locale_path = .valid C)
    (hd : diff_locales H C = some d)
    (hch : d.changed_or_added = []) (hrmne : d.removed ≠ [])
    (hman : SortedKeys manifest.locale_paths)
    (hall : ∀ lp ∈ manifest.locale_paths, ∃ od,
      parse_locale (fsGet fs lp.2) = .ok od ∧
      ∀ k ∈ d.removed.map Prod.fst, containsKey od k = true) :
    (projectUpdate provider available manifest fs).calls = [] ∧
    (projectUpdate provider available manifest fs).result = .ok () ∧
    ∃ ws, (projectUpdate provider available manifest fs).writes
        = ws ++ [(SOURCE_LOCALE_HISTORY_PATH, C)] ∧
      List.Forall₂ (fun lp w => w.1 = lp.2 ∧
        ∃ od, parse_locale (fsGet fs lp.2) = .ok od ∧
          ∀ k, getVal w.2 k =
            if containsKey d.removed k = true then none else getVal od k)
        manifest.locale_paths ws := by
  rcases @get_existing_locale_go_ok fs manifest.locale_paths
      (fun lp hlp => (hall lp hlp).imp (fun od h => h.1)) with ⟨all, hex, hf⟩
  have hcontain : ∀ a ∈ all, ∀ k, containsKey d.removed k = true →
      containsKey a.2 k = true := by
    intro a ha k hk
    rcases forall₂_mem_right hf ha with ⟨lp, hlp, h1, h2⟩
    rcases hall lp hlp with ⟨od, hod, hodc⟩
    have hoda : od = a.2 := Except.ok.inj (hod.symm.trans h2)
    rw [← hoda]
    exact hodc k (mem_keys_iff_containsKey.mpr hk)
  have hndrm : NodupKeys d.removed :=
    nodupKeys_of_sortedKeys (diff_locales_some_sorted hd).2
  have hrm := remove_dead_keys_ok hndrm hcontain
  have hche : d.changed_or_added.isEmpty = true := by
    rw [hch]
    rfl
  have htp := @updateTranslatePhase_empty provider (enabled_languages manifest available)
    d (all.map (fun a => (a.1, removeKeys (d.removed.map Prod.fst) a.2))) hche
  have hf2 : List.Forall₂ (fun lp b => b.1 = lp.1 ∧
      (∃ od, parse_locale (fsGet fs lp.2) = .ok od ∧
        b.2 = removeKeys (d.removed.map Prod.fst) od))
      manifest.locale_paths
      (all.map (fun a => (a.1, removeKeys (d.removed.map Prod.fst) a.2))) := by
    rw [List.forall₂_map_right_iff]
    refine hf.imp ?_
    intro lp a h
    exact ⟨h.1, a.2, h.2, rfl⟩
  rcases @write_locale_file_all_spec
      (fun lp x => ∃ od, parse_locale (fsGet fs lp.2) = .ok od ∧
        x = removeKeys (d.removed.map Prod.fst) od)
      manifest.locale_paths
      (all.map (fun a => (a.1, removeKeys (d.removed.map Prod.fst) a.2)))
      hf2 (nodupKeys_of_sortedKeys hman) with ⟨ws, hw, hfw⟩
  have h2 : updateAfterRemove provider available manifest
      (all.map (fun a => (a.1, removeKeys (d.removed.map Prod.fst) a.2))) C d
      = updateWritePhase manifest C []
          (all.map (fun a => (a.1, removeKeys (d.removed.map Prod.fst) a.2))) := by
    unfold updateAfterRemove
    simp only [htp]
  have h3 : updateAfterExisting provider available manifest all C d
      = updateAfterRemove provider available manifest
          (all.map (fun a => (a.1, removeKeys (d.removed.map Prod.fst) a.2))) C d := by
    unfold updateAfterExisting
    simp only [hrm]
  have h4 : updateAfterDiff provider available manifest fs C d
      = updateAfterExisting provider available manifest all C d := by
    unfold updateAfterDiff
    simp only [get_existing_locale_data_all, hex]
  have hafter : updateAfterDiff provider available manifest fs C d
      = ⟨[], ws ++ [(SOURCE_LOCALE_HISTORY_PATH, C)], true, .ok ()⟩ := by
    rw [h4, h3, h2, updateWritePhase_ok hw]
  rw [projectUpdate_eq_afterDiff hh hs hd, hafter]
  refine ⟨rfl, rfl, ws, rfl, ?_⟩
  refine hfw.imp ?_
  intro lp w hw2
  obtain ⟨hw1, od, hod, hw3⟩ := hw2
  refine ⟨hw1, od, hod, ?_⟩
  intro k
  rw [hw3, getVal_removeKeys]
  by_cases hk : containsKey d.removed k = true
  · rw [if_pos (mem_keys_iff_containsKey.mpr hk), if_pos hk]
  · rw [if_neg (fun hm => hk (mem_keys_iff_containsKey.mp hm)), if_neg hk]

/-- Witness for C6: the source drops the key "farewell" with no other
change; the German document gets exactly that key deleted. -/
theorem pure_removal_cycle_witness :
    fsGet [(SOURCE_LOCALE_HISTORY_PATH,
          FileContent.valid [("farewell", "Bye"), ("greeting", "Hello")]),
        ("en.json", .valid [("greeting", "Hello")]),
        ("de.json", .valid [("farewell", "Tschuess"), ("greeting", "Hallo")])]
        SOURCE_LOCALE_HISTORY_PATH
      = .valid [("farewell", "Bye"), ("greeting", "Hello")] ∧
    diff_locales [("farewell", "Bye"), ("greeting", "Hello")] [("greeting", "Hello")]
      = some ⟨[], [("farewell", "Bye")]⟩ ∧
    ((projectUpdate (fun _ ts => .ok ts) demoAvailable demoManifest
        [(SOURCE_LOCALE_HISTORY_PATH,
            FileContent.valid [("farewell", "Bye"), ("greeting", "Hello")]),
          ("en.json", .valid [("greeting", "Hello")]),
          ("de.json", .valid [("farewell", "Tschuess"), ("greeting", "Hallo")])]).calls
      = [] ∧
    (projectUpdate (fun _ ts => .ok ts) demoAvailable demoManifest
        [(SOURCE_LOCALE_HISTORY_PATH,
            FileContent.valid [("farewell", "Bye"), ("greeting", "Hello")]),
          ("en.json", .valid [("greeting", "Hello")]),
          ("de.json", .valid [("farewell", "Tschuess"), ("greeting", "Hallo")])]).result
      = .ok () ∧
    ∃ ws, (projectUpdate (fun _ ts => .ok ts) demoAvailable demoManifest
        [(SOURCE_LOCALE_HISTORY_PATH,
            FileContent.valid [("farewell", "Bye"), ("greeting", "Hello")]),
          ("en.json", .valid [("greeting", "Hello")]),
          ("de.json", .valid [("farewell", "Tschuess"), ("greeting", "Hallo")])]).writes
        = ws ++ [(SOURCE_LOCALE_HISTORY_PATH, [("greeting", "Hello")])] ∧
      List.Forall₂ (fun lp w => w.1 = lp.2 ∧
        ∃ od, parse_locale (fsGet
            [(SOURCE_LOCALE_HISTORY_PATH,
                FileContent.valid [("farewell", "Bye"), ("greeting", "Hello")]),
              ("en.json", .valid [("greeting", "Hello")]),
              ("de.json", .valid [("farewell", "Tschuess"), ("greeting", "Hallo")])]
            lp.2) = .ok od ∧
          ∀ k, getVal w.2 k =
            if containsKey ([("farewell", "Bye")] : LocaleData) k = true then none
            else getVal od k)
        demoManifest.locale_paths ws) :=
  ⟨by decide, by decide,
    pure_removal_cycle (fun _ ts => .ok ts) demoAvailable demoManifest
      [(SOURCE_LOCALE_HISTORY_PATH,
          FileContent.valid [("farewell", "Bye"), ("greeting", "Hello")]),
        ("en.json", .valid [("greeting", "Hello")]),
        ("de.json", .valid [("farewell", "Tschuess"), ("greeting", "Hallo")])]
      [("farewell", "Bye"), ("greeting", "Hello")] [("greeting", "Hello")]
      ⟨[], [("farewell", "Bye")]⟩
      (by decide) (by decide) (by decide) rfl (by decide) (by decide)
      (by
        intro lp hlp
        simp only [demoManifest, List.mem_singleton] at hlp
        subst hlp
        exact ⟨[("farewell", "Tschuess"), ("greeting", "Hallo")], rfl, by decide⟩)⟩

/-! ## The language-set guard (C7) -/

/-- Counterexample to C7 as stated: with a pending non-Empty diff between
snapshot history and current source, the settings-management flow of
src/main.rs still applies an added language and writes the manifest — the
attempt is not rejected with a diagnostic, and a file (the manifest) is
mutated. The flow contains no pending-diff check at all. -/
theorem language_guard_counterexample :
    diff_locales [("greeting", "Hello")] [("greeting", "Hi")] ≠ none ∧
    (projectManageLanguages [⟨"DE", "German"⟩, ⟨"FR", "French"⟩]
        ⟨"en.json", [("DE", "de.json")]⟩
        [⟨"DE", "German"⟩, ⟨"FR", "French"⟩] (fun _ => "fr.json")).manifestWritten
      = true ∧
    (projectManageLanguages [⟨"DE", "German"⟩, ⟨"FR", "French"⟩]
        ⟨"en.json", [("DE", "de.json")]⟩
        [⟨"DE", "German"⟩, ⟨"FR", "French"⟩]
        (fun _ => "fr.json")).newManifest.locale_paths
      ≠ [("DE", "de.json")] :=
  ⟨by decide, rfl, by decide⟩

/-- **C7 amended**: the settings-management flow applies the requested
language-set change and writes the manifest unconditionally — even when
`diff(history, current)` is non-Empty — and mutates no locale or snapshot
file; no rejection or pending-diff check exists in the flow. -/
theorem language_set_change_unguarded (available : List Language)
    (manifest : LocaleManifest) (new_selected_languages : List Language)
    (select_output : Language → String) (H C : LocaleData)
    (hpending : diff_locales H C ≠ none) :
    (projectManageLanguages available manifest new_selected_languages
        select_output).manifestWritten = true ∧
    (projectManageLanguages available manifest new_selected_languages
        select_output).localeWrites = [] := by
  unfold projectManageLanguages
  dsimp only
  cases diff_languages (enabled_languages manifest available) new_selected_languages with
  | none => exact ⟨rfl, rfl⟩
  | some d => exact ⟨rfl, rfl⟩

/-- Witness for the amended C7 at a concrete pending-diff state. -/
theorem language_set_change_unguarded_witness :
    diff_locales [("greeting", "Hello")] [("greeting", "Hi")] ≠ none ∧
    ((projectManageLanguages demoAvailable demoManifest []
        (fun _ => "out.json")).manifestWritten = true ∧
      (projectManageLanguages demoAvailable demoManifest []
        (fun _ => "out.json")).localeWrites = []) :=
  ⟨by decide,
    language_set_change_unguarded demoAvailable demoManifest [] (fun _ => "out.json")
      [("greeting", "Hello")] [("greeting", "Hi")] (by decide)⟩

/-! ## Key-set synchronization (C10) -/

theorem diff_locales_some_eq {A B : LocaleData} {d : LocaleDataDiff}
    (h : diff_locales A B = some d) :
    d.changed_or_added = diffChanged A B ∧ d.removed = diffRemoved A B := by
  unfold diffChanged diffRemoved
  rw [h]
  exact ⟨rfl, rfl⟩

/-- **C10** Key-set synchronization invariant: for a derived document
whose key set equals the history snapshot, removing the diff's removed
keys cannot hit the fatal missing-key branch (`remove_dead_entries`
succeeds), and after merging any translated map whose key set equals the
changed-or-added map's, the document's key set equals the current source
document's key set. -/
theorem update_keyset_sync (H C od td : LocaleData) (d : LocaleDataDiff)
    (hH : SortedKeys H) (hC : SortedKeys C)
    (hd : diff_locales H C = some d)
    (hod : ∀ k, containsKey od k = containsKey H k)
    (htd : ∀ k, containsKey td k = containsKey d.changed_or_added k) :
    remove_dead_entries od d.removed
        = .ok (removeKeys (d.removed.map Prod.fst) od) ∧
    ∀ k, containsKey (update_entries (removeKeys (d.removed.map Prod.fst) od) td) k
        = containsKey C k := by
  obtain ⟨hch, hrm⟩ := diff_locales_some_eq hd
  have hndrm : NodupKeys d.removed :=
    nodupKeys_of_sortedKeys (diff_locales_some_sorted hd).2
  have hchangedc : ∀ k, containsKey d.changed_or_added k = true ↔
      (∃ v, getVal C k = some v ∧ getVal H k ≠ some v) := by
    intro k
    rw [hch, containsKey_iff]
    constructor
    · rintro ⟨v, hv⟩
      exact ⟨v, (getVal_diffChanged hC).mp hv⟩
    · rintro ⟨v, hv⟩
      exact ⟨v, (getVal_diffChanged hC).mpr hv⟩
  have hremc : ∀ k, containsKey d.removed k = true ↔
      ((∃ v, getVal H k = some v) ∧ getVal C k = none) := by
    intro k
    rw [hrm, containsKey_iff]
    constructor
    · rintro ⟨v, hv⟩
      have h2 := (getVal_diffRemoved hH).mp hv
      exact ⟨⟨v, h2.1⟩, h2.2⟩
    · rintro ⟨⟨v, hv⟩, hc⟩
      exact ⟨v, (getVal_diffRemoved hH).mpr ⟨hv, hc⟩⟩
  have hremok : remove_dead_entries od d.removed
      = .ok (removeKeys (d.removed.map Prod.fst) od) := by
    refine remove_dead_entries_ok hndrm ?_
    intro k hk
    rcases ((hremc k).mp hk).1 with ⟨v, hv⟩
    rw [hod]
    exact containsKey_iff.mpr ⟨v, hv⟩
  refine ⟨hremok, ?_⟩
  intro k
  rw [containsKey_update_entries, htd]
  have hrk : containsKey (removeKeys (d.removed.map Prod.fst) od) k
      = (!(containsKey d.removed k) && containsKey H k) := by
    by_cases hm : k ∈ d.removed.map Prod.fst
    · have h1 : containsKey d.removed k = true := mem_keys_iff_containsKey.mp hm
      have h2 : containsKey (removeKeys (d.removed.map Prod.fst) od) k = false := by
        simp only [containsKey]
        rw [getVal_removeKeys, if_pos hm]
        rfl
      rw [h1, h2]
      rfl
    · have h1 : containsKey d.removed k = false := by
        cases hcc : containsKey d.removed k
        · rfl
        · exact absurd (mem_keys_iff_containsKey.mpr hcc) hm
      have h2 : containsKey (removeKeys (d.removed.map Prod.fst) od) k
          = containsKey od k := by
        simp only [containsKey]
        rw [getVal_removeKeys, if_neg hm]
      rw [h1, h2, hod]
      rfl
  rw [hrk]
  cases hCk : getVal C k with
  | some v =>
    have hCc : containsKey C k = true := by simp [containsKey, hCk]
    rw [hCc]
    by_cases hHk : getVal H k = some v
    · have hH1 : containsKey H k = true := by simp [containsKey, hHk]
      have hch0 : containsKey d.changed_or_added k = false := by
        cases hb : containsKey d.changed_or_added k
        · rfl
        · rcases (hchangedc k).mp hb with ⟨w, hw1, hw2⟩
          rw [hCk] at hw1
          have hwv : v = w := Option.some.injEq .. ▸ hw1
          exact absurd (hwv ▸ hHk) hw2
      have hrm0 : containsKey d.removed k = false := by
        cases hb : containsKey d.removed k
        · rfl
        · have h3 := ((hremc k).mp hb).2
          rw [hCk] at h3
          exact absurd h3 (by simp)
      rw [hch0, hrm0, hH1]
      rfl
    · have hch1 : containsKey d.changed_or_added k = true :=
        (hchangedc k).mpr ⟨v, hCk, hHk⟩
      rw [hch1]
      rfl
  | none =>
    have hCc : containsKey C k = false := by simp [containsKey, hCk]
    rw [hCc]
    have hch0 : containsKey d.changed_or_added k = false := by
      cases hb : containsKey d.changed_or_added k
      · rfl
      · rcases (hchangedc k).mp hb with ⟨w, hw1, _⟩
        rw [hCk] at hw1
        exact absurd hw1 (by simp)
    rw [hch0]
    cases hHk : getVal H k with
    | some w =>
      have hrm1 : containsKey d.removed k = true := (hremc k).mpr ⟨⟨w, hHk⟩, hCk⟩
      rw [hrm1]
      rfl
    | none =>
      have hH0 : containsKey H k = false := by simp [containsKey, hHk]
      rw [hH0]
      simp

/-- Witness for C10: history `{"farewell": "Bye", "greeting": "Hello"}`,
current `{"greeting": "Hi there", "welcome": "Yo"}`, a derived document
with the history's key set and a translated map with the changed-or-added
key set. -/
theorem update_keyset_sync_witness :
    SortedKeys [("farewell", "Bye"), ("greeting", "Hello")] ∧
    diff_locales [("farewell", "Bye"), ("greeting", "Hello")]
        [("greeting", "Hi there"), ("welcome", "Yo")]
      = some ⟨[("greeting", "Hi there"), ("welcome", "Yo")], [("farewell", "Bye")]⟩ ∧
    (remove_dead_entries [("farewell", "Bye"), ("greeting", "Hello")]
        [("farewell", "Bye")]
        = .ok (removeKeys (([("farewell", "Bye")] : LocaleData).map Prod.fst)
            [("farewell", "Bye"), ("greeting", "Hello")]) ∧
    ∀ k, containsKey (update_entries
        (removeKeys (([("farewell", "Bye")] : LocaleData).map Prod.fst)
          [("farewell", "Bye"), ("greeting", "Hello")])
        [("greeting", "Hi there"), ("welcome", "Yo")]) k
      = containsKey [("greeting", "Hi there"), ("welcome", "Yo")] k) :=
  ⟨by decide, by decide,
    update_keyset_sync [("farewell", "Bye"), ("greeting", "Hello")]
      [("greeting", "Hi there"), ("welcome", "Yo")]
      [("farewell", "Bye"), ("greeting", "Hello")]
      [("greeting", "Hi there"), ("welcome", "Yo")]
      ⟨[("greeting", "Hi there"), ("welcome", "Yo")], [("farewell", "Bye")]⟩
      (by decide) (by decide) (by decide) (fun _ => rfl) (fun _ => rfl)⟩

end LTranslate
